import Mathlib

/-!
Shallow embedding of the pattern-tree library (`src/index.ts` of
`partial-pattern-tree`) and verification of its specification claims.

Conventions of the embedding:
* JS strings are modelled as `List Char` (`Str`); `String.slice`, `take`,
  `drop` and `startsWith` become the corresponding list operations.
* A `RegExp` token is modelled abstractly as a `Pat`: its `source` text
  together with `exec : Str → Option Nat`, giving the length of the
  left-aligned match of the (anchored) pattern on a query, or `none`.
  This is exactly the data `consume` uses: `token.exec(query)` followed by
  `query.slice(match[0].length)`.
* JS `Map`s (and the external `AutoCollisionMap` / `AutoMap`, which the
  spec describes as "get-or-create-default" maps that "canonicalize the key
  before lookup") are modelled as insertion-ordered association lists:
  `set` on an existing key replaces the value in place, `set` on a fresh
  key appends at the end, iteration is in list order.
* Thrown exceptions are modelled by returning the (unchanged or partially
  mutated) state together with `Option Err`, matching in-place mutation
  followed by a throw.
-/

set_option autoImplicit false

namespace PPT

/-- JS strings as lists of characters. -/
abbrev Str := List Char

/-- Coerce a Lean string literal to the `Str` model. -/
def s2l (s : String) : Str := s.data

/-- Abstract model of an anchored `RegExp`: its source text and its
left-aligned match behaviour (`exec q = some n` iff `re.exec(q)` returns a
match `m` with `m[0].length = n`). -/
structure Pat where
  source : Str
  exec : Str → Option Nat

/-- `type Token = RegExp | string`. -/
inductive Token : Type where
  | str (s : Str)
  | pat (p : Pat)

/-- Canonical key of a token, as computed by the key function passed to the
`AutoCollisionMap` in `Node.branches`: the literal text for a string, the
regex `source` for a pattern. -/
def keyOf : Token → Str
  | .str s => s
  | .pat p => p.source

/-- The error kinds the library throws. -/
inductive Err : Type where
  | validationErr      -- TypeError "Regex tokens must start with '^'"
  | sealedErr          -- "This tree has been optimized and is no-longer accepting new sequences."
  | alreadyOptimizedErr -- "Already optimized."
deriving DecidableEq, Repr

/-- `s.startsWith(p)` on JS strings: `p` is an initial segment of `s`. -/
def startsWithS (s p : Str) : Bool := decide (s.take p.length = p)

/-- `token.source.startsWith("^")`: the validation check in `expandSequence`. -/
def isAnchored (s : Str) : Bool := startsWithS s ['^']

/-- `function consume(token, query)`: removes the partial match of the token
from the front of the query, or `none` if no match.

```ts
if(query.length === 0){ return "" }
if( token instanceof RegExp ){
    const match = token.exec(query)
    if( !match ) return undefined;
    else return query.slice(match[0].length)
} else {
    const subject = query.slice(0, token.length)
    if( token.startsWith(subject) ) return query.slice(token.length)
    else return undefined
}
``` -/
def consume (token : Token) (query : Str) : Option Str :=
  if query = [] then some [] else
  match token with
  | .pat p =>
      match p.exec query with
      | none => none
      | some n => some (query.drop n)
  | .str s =>
      let subject := query.take s.length
      if startsWithS s subject then some (query.drop s.length) else none

/-- `function expandSequence(sequence)`: splits every string token into its
single characters and validates that every regex token is anchored
(`source.startsWith("^")`), else throws the `TypeError`.  The JS version
maps eagerly over the whole sequence and flattens, throwing at the first
unanchored regex; the result is identical to this right-fold. -/
def expandSequence : List Token → Except Err (List Token)
  | [] => .ok []
  | .str s :: rest => do
      let r ← expandSequence rest
      .ok (s.map (fun c => Token.str [c]) ++ r)
  | .pat p :: rest =>
      if isAnchored p.source then do
        let r ← expandSequence rest
        .ok (Token.pat p :: r)
      else .error .validationErr

mutual
/-- `class Node<T>`: outgoing edges (`branches`) and terminal `values`
(value ↦ minimal skip count). -/
inductive Node (T : Type) : Type where
  | mk (branches : Branches T) (values : List (T × Nat))

/-- The `branches` map of a node: an insertion-ordered association list of
token ↦ child node, looked up by the token's canonical key. -/
inductive Branches (T : Type) : Type where
  | nil
  | cons (tok : Token) (child : Node T) (rest : Branches T)
end

variable {T : Type}

def Node.branches : Node T → Branches T
  | .mk bs _ => bs

def Node.values : Node T → List (T × Nat)
  | .mk _ vs => vs

/-- `new Node()` -/
def emptyNode : Node T := .mk .nil []

/-- Number of entries in a branch map (`this.branches.size`). -/
def bsize : Branches T → Nat
  | .nil => 0
  | .cons _ _ rest => bsize rest + 1

/-- Is an entry with this canonical key present? -/
def containsKeyB (bs : Branches T) (k : Str) : Bool :=
  match bs with
  | .nil => false
  | .cons t _ rest => keyOf t = k || containsKeyB rest k

/-- `Map.set` on an existing canonical key: replace the value in place,
keep the stored token and the position.  (Only called when the key is
present.) -/
def replaceKeyB (bs : Branches T) (k : Str) (n : Node T) : Branches T :=
  match bs with
  | .nil => .nil
  | .cons t c rest =>
      if keyOf t = k then .cons t n rest
      else .cons t c (replaceKeyB rest k n)

/-- Append an entry at the end of the map (a `set` with a fresh key). -/
def appendB (bs : Branches T) (tok : Token) (n : Node T) : Branches T :=
  match bs with
  | .nil => .cons tok n .nil
  | .cons t c rest => .cons t c (appendB rest tok n)

/-- Get-or-create on `branches` (`AutoCollisionMap.get`), immediately
transforming the found (or freshly created) child with `f`.  This is
`this.branches.get(first)` followed by mutating the returned node. -/
def branchAdjust (bs : Branches T) (tok : Token) (f : Node T → Node T) : Branches T :=
  match bs with
  | .nil => .cons tok (f emptyNode) .nil
  | .cons t c rest =>
      if keyOf t = keyOf tok then .cons t (f c) rest
      else .cons t c (branchAdjust rest tok f)

/-- `this.values.get(v)` -/
def lookupVal [DecidableEq T] (vs : List (T × Nat)) (v : T) : Option Nat :=
  match vs with
  | [] => none
  | (w, c) :: rest => if w = v then some c else lookupVal rest v

/-- `this.values.set( value, Math.min( this.values.get(value) ?? Infinity, skipped ) )`:
replace in place with the min when present, append `skipped` when absent. -/
def setMin [DecidableEq T] (vs : List (T × Nat)) (v : T) (k : Nat) : List (T × Nat) :=
  match vs with
  | [] => [(v, k)]
  | (w, c) :: rest => if w = v then (w, min c k) :: rest else (w, c) :: setMin rest v k

/-- `Node.addSequence(sequence, value, skipped)`:

```ts
if( sequence.length === 0 ) {
    this.values.set( value, Math.min( this.values.get(value) ?? Infinity, skipped ) )
    return;
}
const first = sequence[0];
const rest  = sequence.slice(1);
const victim = this.branches.get(first)
victim.addSequence(rest, value, skipped);
``` -/
def addSeqN [DecidableEq T] (n : Node T) (seq : List Token) (v : T) (k : Nat) : Node T :=
  match seq with
  | [] => .mk n.branches (setMin n.values v k)
  | first :: rest => .mk (branchAdjust n.branches first (fun c => addSeqN c rest v k)) n.values

mutual
/-- `Node.has(query)`: scan the branches in order; on the first token whose
`consume` succeeds, report a match if the remainder is empty, else return
the recursion into that single branch (siblings are never tried). -/
def hasN (n : Node T) (query : Str) : Bool :=
  match n with
  | .mk bs _ => hasB bs query

def hasB (bs : Branches T) (query : Str) : Bool :=
  match bs with
  | .nil => false
  | .cons t b rest =>
      match consume t query with
      | none => hasB rest query
      | some nextQuery =>
          if nextQuery = [] then true else hasN b nextQuery
end

/-- Concatenation of two branch maps (used only for the unreachable
out-of-fuel case of the optimization loop). -/
def bappend (bs cs : Branches T) : Branches T :=
  match bs with
  | .nil => cs
  | .cons t c rest => .cons t c (bappend rest cs)

mutual
/-- Structural weight of a node; used to compute a sufficient fuel bound for
the optimization loop (each loop step strictly decreases the total weight of
the unvisited part of the map). -/
def nodeWeight : Node T → Nat
  | .mk bs _ => bweight bs + 1

def bweight : Branches T → Nat
  | .nil => 0
  | .cons _ c rest => nodeWeight c + bweight rest
end

/-- The body of `Node.optimize`'s `for( let [x, rest] of this.branches.entries() )`
loop, operating on the already-recursively-optimized children.

The JS loop iterates over a live `Map`: visited entries sit in front
(`visited`), the current entry is the head of `todo`.  When the merge
condition holds (`rest` is a child reached by a string edge `x`, has exactly
one branch `y ↦ child` — the duplicated guard `if(rest.branches.size === 1)` /
`if(rest.branches.size === 1 && rest.values.size === 0)` nets to the
conjunction — no values, and `y` is a string), the loop performs
`this.branches.delete(x); this.branches.set(x + y, child)`: the appended
entry is visited later by the live iterator, while a `set` on an existing
canonical key replaces in place (and is revisited only if it sits in the
unvisited part).  `fuel` is a step counter: every step strictly decreases
`bweight todo`, so `bweight todo + 1` steps always suffice and the
out-of-fuel branch is dead code.

In the source, each iteration re-runs `rest.optimize()` — including on
entries appended by earlier merges, whose subtrees were already optimized.
Since a node's `optimize` is idempotent on nodes satisfying the key
invariant (`optNode_idem` below), those re-runs are no-ops, so the loop
here operates on the once-optimized children without re-optimizing. -/
def mergeLoopF [DecidableEq T] : Nat → Branches T → Branches T → Branches T
  | _, visited, .nil => visited
  | 0, visited, todo => bappend visited todo
  | fuel + 1, visited, .cons x rest todoRest =>
      match x with
      | .pat _ => mergeLoopF fuel (appendB visited x rest) todoRest
      | .str s =>
          match rest with
          | .mk (.cons y child .nil) [] =>
              match y with
              | .str t =>
                  let k := s ++ t
                  if containsKeyB visited k then
                    mergeLoopF fuel (replaceKeyB visited k child) todoRest
                  else if containsKeyB todoRest k then
                    mergeLoopF fuel visited (replaceKeyB todoRest k child)
                  else
                    mergeLoopF fuel visited (appendB todoRest (.str k) child)
              | .pat _ => mergeLoopF fuel (appendB visited x rest) todoRest
          | _ => mergeLoopF fuel (appendB visited x rest) todoRest

mutual
/-- `Node.optimize()`: recursively optimize every child (the source does so
on each loop iteration, before examining the entry), then run the merge
loop over this node's branch map. -/
def optNode [DecidableEq T] : Node T → Node T
  | .mk bs vs =>
      let bs' := optB bs
      .mk (mergeLoopF (bweight bs' + 1) .nil bs') vs

def optB [DecidableEq T] : Branches T → Branches T
  | .nil => .nil
  | .cons t c rest => .cons t (optNode c) (optB rest)
end

/-- One accumulator step of `_search`'s offer loop:
`if( ret.get(k) > v ) ret.set(k, v)`, where `ret` is an `AutoMap` defaulting
to `Infinity` (so an absent key is created and immediately set to `v`,
i.e. appended). -/
def retUpdate [DecidableEq T] (ret : List (T × Nat)) (v : T) (c : Nat) : List (T × Nat) :=
  match ret with
  | [] => [(v, c)]
  | (w, c0) :: rest =>
      if w = v then (if c < c0 then (w, c) :: rest else (w, c0) :: rest)
      else (w, c0) :: retUpdate rest v c

/-- `for( let [k, v] of branch.values ) if( ret.get(k) > v ) ret.set(k, v)` -/
def offerFold [DecidableEq T] (ret : List (T × Nat)) (vs : List (T × Nat)) : List (T × Nat) :=
  vs.foldl (fun r p => retUpdate r p.1 p.2) ret

mutual
/-- `Node._search(query, ret, ...)`: explore every branch whose `consume`
succeeds (recursing first), and whenever the branch consumed the whole
query, offer that branch's values to the accumulator. -/
def searchGoN [DecidableEq T] (n : Node T) (query : Str) (ret : List (T × Nat)) :
    List (T × Nat) :=
  match n with
  | .mk bs _ => searchGoB bs query ret

def searchGoB [DecidableEq T] (bs : Branches T) (query : Str) (ret : List (T × Nat)) :
    List (T × Nat) :=
  match bs with
  | .nil => ret
  | .cons t b rest =>
      match consume t query with
      | none => searchGoB rest query ret
      | some nextQuery =>
          let ret1 := searchGoN b nextQuery ret
          let ret2 := if nextQuery = [] then offerFold ret1 b.values else ret1
          searchGoB rest query ret2
end

/-- Insert a pair into a cost-sorted list, after all strictly cheaper
entries and before all others; this is the unique stable ascending sort
step, matching `Array.prototype.sort`'s stability. -/
def insPair {T : Type} (p : T × Nat) : List (T × Nat) → List (T × Nat)
  | [] => [p]
  | q :: rest => if q.2 < p.2 then q :: insPair p rest else p :: q :: rest

/-- Stable ascending sort by cost: `.sort( (kv0, kv1) => kv0[1] - kv1[1] )`. -/
def sortPairs {T : Type} : List (T × Nat) → List (T × Nat)
  | [] => []
  | p :: rest => insPair p (sortPairs rest)

/-- `Node.search(query)` before dropping the costs: the accumulated
(value, cost) entries, stably sorted ascending by cost. -/
def searchPairsN [DecidableEq T] (n : Node T) (query : Str) : List (T × Nat) :=
  sortPairs (searchGoN n query [])

/-- `Node.search(query)`: the sorted values. -/
def searchValsN [DecidableEq T] (n : Node T) (query : Str) : List T :=
  (searchPairsN n query).map Prod.fst

/-- `type SequenceValuePair<T> = [Sequence, T]` -/
abbrev SVPair (T : Type) := List Token × T

/-- `class PartialPatternTree<T>`: the root node and the `optimized` flag. -/
structure PPTree (T : Type) where
  root : Node T
  optimized : Bool

/-- `new PartialPatternTree()` before any pair is added. -/
def emptyTree : PPTree T := ⟨emptyNode, false⟩

/-- `PartialPatternTree._addSequence(pair)`: expand the whole sequence
(this is where the validation `TypeError` can be thrown, before any node is
touched), then insert every tail `expanded.slice(i)` with skip count `i`. -/
def addSeqT0 [DecidableEq T] (t : PPTree T) (pair : SVPair T) : PPTree T × Option Err :=
  match expandSequence pair.1 with
  | .error e => (t, some e)
  | .ok ex =>
      ({ t with
         root := (List.range ex.length).foldl
           (fun r i => addSeqN r (ex.drop i) pair.2 i) t.root }, none)

/-- `PartialPatternTree.addSequence(pair)`: throws when already optimized. -/
def addSequenceT [DecidableEq T] (t : PPTree T) (pair : SVPair T) : PPTree T × Option Err :=
  if t.optimized then (t, some .sealedErr) else addSeqT0 t pair

/-- The `for( let pair of pairs )` loop of `addSequences`: earlier pairs
stay inserted when a later pair throws. -/
def addSeqListT0 [DecidableEq T] (t : PPTree T) : List (SVPair T) → PPTree T × Option Err
  | [] => (t, none)
  | p :: ps =>
      match addSeqT0 t p with
      | (t', none) => addSeqListT0 t' ps
      | (t', some e) => (t', some e)

/-- `PartialPatternTree.addSequences(pairs)`: throws when already optimized. -/
def addSequencesT [DecidableEq T] (t : PPTree T) (pairs : List (SVPair T)) :
    PPTree T × Option Err :=
  if t.optimized then (t, some .sealedErr) else addSeqListT0 t pairs

/-- `PartialPatternTree.optimize()`: throws `"Already optimized."` on a
second call, else optimizes the root and sets the flag. -/
def optimizeT [DecidableEq T] (t : PPTree T) : PPTree T × Option Err :=
  if t.optimized then (t, some .alreadyOptimizedErr)
  else (⟨optNode t.root, true⟩, none)

/-- `PartialPatternTree.has(query)` -/
def hasT (t : PPTree T) (query : Str) : Bool := hasN t.root query

/-- `PartialPatternTree.search(query)` -/
def searchT [DecidableEq T] (t : PPTree T) (query : Str) : List T :=
  searchValsN t.root query

/-- `new PartialPatternTree(pairs)`: the constructor forwards to
`addSequences` on a fresh, unoptimized tree. -/
def buildT [DecidableEq T] (pairs : List (SVPair T)) : PPTree T × Option Err :=
  addSequencesT emptyTree pairs

/-! ### Specification-side helper definitions -/

mutual
/-- Does `v` occur as a value anywhere in the subtree rooted at `n`? -/
def valueInN [DecidableEq T] (n : Node T) (v : T) : Bool :=
  match n with
  | .mk bs vs => (lookupVal vs v).isSome || valueInB bs v

def valueInB [DecidableEq T] (bs : Branches T) (v : T) : Bool :=
  match bs with
  | .nil => false
  | .cons _ c rest => valueInN c v || valueInB rest v
end

mutual
/-- The multiset (ordered list) of `(value, cost)` candidate offers a
`_search` traversal makes: for every branch whose `consume` succeeds, the
offers of the sub-traversal, then — if the branch consumed the whole
query — the branch's own values. -/
def offersN [DecidableEq T] (n : Node T) (query : Str) : List (T × Nat) :=
  match n with
  | .mk bs _ => offersB bs query

def offersB [DecidableEq T] (bs : Branches T) (query : Str) : List (T × Nat) :=
  match bs with
  | .nil => []
  | .cons t b rest =>
      match consume t query with
      | none => offersB rest query
      | some nextQuery =>
          (offersN b nextQuery ++ if nextQuery = [] then b.values else [])
            ++ offersB rest query
end

/-- Consuming a single literal character. -/
def consumeChar (c : Char) (q : Str) : Option Str :=
  match q with
  | [] => some []
  | d :: q2 => if c = d then some q2 else none

/-- The offers contributed by one branch map entry. -/
def offersE [DecidableEq T] (t : Token) (b : Node T) (q : Str) : List (T × Nat) :=
  match consume t q with
  | none => []
  | some nq => offersN b nq ++ if nq = [] then b.values else []

/-- Minimum of two optional costs (`none` = no offer yet). -/
def omin : Option Nat → Option Nat → Option Nat
  | none, b => b
  | some x, none => some x
  | some x, some y => some (min x y)

/-- The minimal cost at which `v` is offered in a list of offers. -/
def offMin [DecidableEq T] (l : List (T × Nat)) (v : T) : Option Nat :=
  match l with
  | [] => none
  | (w, c) :: rest => if w = v then omin (some c) (offMin rest v) else offMin rest v

/-- The keys of a value/accumulator map. -/
def keysOf (l : List (T × Nat)) : List T := l.map Prod.fst

/-- The minimal cost `search` associates to a value: the accumulator entry
for `v` after the `_search` traversal. -/
def minCostOf [DecidableEq T] (t : PPTree T) (query : Str) (v : T) : Option Nat :=
  lookupVal (searchGoN t.root query []) v

/-- Lookup in a branch map by canonical key. -/
def findKeyB (bs : Branches T) (k : Str) : Option (Node T) :=
  match bs with
  | .nil => none
  | .cons t c rest => if keyOf t = k then some c else findKeyB rest k

/-- Follow a path of canonical keys down the branch maps. -/
def followB (n : Node T) : List Str → Option (Node T)
  | [] => some n
  | k :: ks =>
      match findKeyB n.branches k with
      | none => none
      | some c => followB c ks

/-- The recorded cost of `v` at the node reached by a canonical-key path
(`none` when the path or the value is missing). -/
def costAt [DecidableEq T] (n : Node T) (path : List Str) (v : T) : Option Nat :=
  match followB n path with
  | none => none
  | some m => lookupVal m.values v

/-- The canonical-key path of an (expanded) sequence. -/
def keyPath (seq : List Token) : List Str := seq.map keyOf

/-- `Math.min( existing ?? Infinity, skipped )`: the cost the source records,
as a function of the previously recorded cost (`none` = `Infinity`). -/
def minInf (old : Option Nat) (k : Nat) : Nat :=
  match old with
  | none => k
  | some c => min c k

/-- The first branch whose token consumes the query, together with the
remainder: the edge `Node.has` commits to. -/
def firstSucc (bs : Branches T) (q : Str) : Option (Node T × Str) :=
  match bs with
  | .nil => none
  | .cons t b rest =>
      match consume t q with
      | none => firstSucc rest q
      | some nq => some (b, nq)

/-- The canonical keys of the literal (string) edges of a branch map, in
container order. -/
def litKeys : Branches T → List Str
  | .nil => []
  | .cons t _ rest =>
      match t with
      | .str s => s :: litKeys rest
      | .pat _ => litKeys rest

/-- The canonical keys of the pattern edges of a branch map. -/
def patKeys : Branches T → List Str
  | .nil => []
  | .cons t _ rest =>
      match t with
      | .str _ => patKeys rest
      | .pat p => p.source :: patKeys rest

/-- All canonical keys of a branch map, in container order. -/
def allKeys : Branches T → List Str
  | .nil => []
  | .cons t _ rest => keyOf t :: allKeys rest

/-- Node-level key invariant under which the merge loop never overwrites an
existing entry: literal keys are non-empty, do not start with `'^'`, and
have pairwise distinct first characters; pattern keys start with `'^'`.
This is exactly what makes every merged key `x ++ y` fresh: its first
character is `x`'s, which no remaining literal key shares and no pattern
key can have. -/
def EInv (bs : Branches T) : Prop :=
  (∀ s ∈ litKeys bs, s.head? ≠ some '^' ∧ s ≠ []) ∧
  ((litKeys bs).map List.head?).Nodup ∧
  (∀ s ∈ patKeys bs, s.head? = some '^')

mutual
/-- `EInv` at every node of the subtree. -/
def RInvN : Node T → Prop
  | .mk bs _ => EInv bs ∧ RInvB bs

def RInvB : Branches T → Prop
  | .nil => True
  | .cons _ c rest => RInvN c ∧ RInvB rest
end

/-- An atomic token as produced by `expandSequence` on caret-free literals:
a single literal character other than `'^'`, or an anchored pattern. -/
def TokGoodAtom : Token → Prop
  | .str s => ∃ c, s = [c] ∧ c ≠ '^'
  | .pat p => isAnchored p.source = true

/-- The tokens of a branch map, in container order. -/
def toksB : Branches T → List Token
  | .nil => []
  | .cons t _ rest => t :: toksB rest

mutual
/-- Invariant of trees built by insertion (before optimization): at every
node all edge tokens are good atoms and the canonical keys are distinct. -/
def BInvN : Node T → Prop
  | .mk bs _ => (∀ t ∈ toksB bs, TokGoodAtom t) ∧ (allKeys bs).Nodup ∧ BInvB bs

def BInvB : Branches T → Prop
  | .nil => True
  | .cons _ c rest => BInvN c ∧ BInvB rest
end

/-- An entry on which the merge condition of the optimization loop fails:
its token is a pattern, or its target is not a value-free node with exactly
one literal edge.  (These are the entries the loop moves to the visited
part unchanged.) -/
def entryStable : Token → Node T → Prop :=
  fun x rest =>
    match x, rest with
    | .str _, .mk (.cons (.str _) _ .nil) [] => False
    | _, _ => True

/-- All entries of a branch map are stable. -/
def stableB : Branches T → Prop
  | .nil => True
  | .cons x rest r => entryStable x rest ∧ stableB r

/-- Membership of an entry in a branch map. -/
def entryMem (x : Token) (c : Node T) : Branches T → Prop
  | .nil => False
  | .cons t n r => (x = t ∧ c = n) ∨ entryMem x c r

/-! ### Concrete instances used by witnesses and counterexamples -/

/-- An anchored pattern `/^a/`: source `"^a"`, matching one leading `a`. -/
def patA : Pat :=
  { source := s2l "^a",
    exec := fun s => match s with | 'a' :: _ => some 1 | _ => none }

/-- An unanchored pattern (source `"a"`), rejected by `expandSequence`. -/
def patBad : Pat := { source := s2l "a", exec := fun _ => none }

/-- The two entries of the `overlap.spec.ts` regression test. -/
def pairsC2 : List (SVPair Str) :=
  [([Token.str (s2l "ab")], s2l "ab"), ([Token.str (s2l "abc")], s2l "abc")]

def treeC2 : PPTree Str := (buildT pairsC2).1

def treeC2opt : PPTree Str := (optimizeT treeC2).1

/-- Entries `("ab" ↦ 1)`, `("bd" ↦ 2)`: after optimization the root edge
`a` is coalesced into `ab` and moves to the end of the branch map, which
flips the order of the two cost-0 ties for the empty query. -/
def pairsTie : List (SVPair Nat) :=
  [([Token.str (s2l "ab")], 1), ([Token.str (s2l "bd")], 2)]

def treeTie : PPTree Nat := (buildT pairsTie).1

def treeTieOpt : PPTree Nat := (optimizeT treeTie).1

/-- Entries `([/^a/, "x"] ↦ 1)`, `("ay" ↦ 2)`: on query `"ay"` the probe
`has` commits to the pattern edge (whose branch then fails) and never tries
the literal `a` edge, while `search` finds value `2`. -/
def pairsDiv : List (SVPair Nat) :=
  [([Token.pat patA, Token.str (s2l "x")], 1), ([Token.str (s2l "ay")], 2)]

def treeDiv : PPTree Nat := (buildT pairsDiv).1

/-- A sealed tree (as produced by `optimizeT emptyTree`). -/
def tSealed : PPTree Nat := ⟨emptyNode, true⟩

/-- A tree holding one successfully inserted pair, used to check that a
failing insertion leaves earlier contents intact. -/
def tOneGood : PPTree Nat := (addSequenceT emptyTree ([Token.str (s2l "a")], 5)).1

/-! ### Basic lemmas -/

theorem expand_err_eq (seq : List Token) :
    ∀ e, expandSequence seq = .error e → e = .validationErr := by
  induction seq with
  | nil => intro e h; simp [expandSequence] at h
  | cons tok rest ih =>
    intro e h
    match tok with
    | .str s =>
      rw [expandSequence] at h
      cases hrest : expandSequence rest with
      | error e2 => rw [hrest] at h; injection h with h; exact h ▸ ih e2 hrest
      | ok r => rw [hrest] at h; exact Except.noConfusion h
    | .pat p =>
      rw [expandSequence] at h
      by_cases ha : isAnchored p.source
      · rw [if_pos ha] at h
        cases hrest : expandSequence rest with
        | error e2 => rw [hrest] at h; injection h with h; exact h ▸ ih e2 hrest
        | ok r => rw [hrest] at h; exact Except.noConfusion h
      · rw [if_neg ha] at h
        injection h with h
        exact h.symm

theorem expand_bad (seq : List Token)
    (h : ∃ p, Token.pat p ∈ seq ∧ isAnchored p.source = false) :
    expandSequence seq = .error .validationErr := by
  induction seq with
  | nil => obtain ⟨p, hp, _⟩ := h; simp at hp
  | cons tok rest ih =>
    obtain ⟨p, hp, hbad⟩ := h
    match tok with
    | .str s =>
      have hmem : Token.pat p ∈ rest := by
        rcases List.mem_cons.mp hp with h1 | h1
        · exact absurd h1 (by simp)
        · exact h1
      rw [expandSequence, ih ⟨p, hmem, hbad⟩]
      rfl
    | .pat p' =>
      rw [expandSequence]
      by_cases ha : isAnchored p'.source
      · have hmem : Token.pat p ∈ rest := by
          rcases List.mem_cons.mp hp with h1 | h1
          · exfalso
            have hpp : p = p' := by injection h1
            rw [hpp, ha] at hbad
            exact Bool.noConfusion hbad
          · exact h1
        rw [if_pos ha, ih ⟨p, hmem, hbad⟩]
        rfl
      · rw [if_neg ha]

theorem addSeqT0_snd [DecidableEq T] (t : PPTree T) (pair : SVPair T) :
    (addSeqT0 t pair).2 = none ∨ (addSeqT0 t pair).2 = some .validationErr := by
  unfold addSeqT0
  cases hex : expandSequence pair.1 with
  | error e =>
    right
    have he := expand_err_eq pair.1 e hex
    subst he
    rfl
  | ok ex => left; rfl

theorem addSeqT0_snd_fst [DecidableEq T] (t : PPTree T) (pair : SVPair T)
    (h : (addSeqT0 t pair).2 = some .validationErr) : (addSeqT0 t pair).1 = t := by
  unfold addSeqT0 at *
  cases hex : expandSequence pair.1 with
  | error e => rfl
  | ok ex => rw [hex] at h; exact Option.noConfusion h

theorem addSeqListT0_snd [DecidableEq T] (pairs : List (SVPair T)) :
    ∀ t : PPTree T,
      (addSeqListT0 t pairs).2 = none ∨ (addSeqListT0 t pairs).2 = some .validationErr := by
  induction pairs with
  | nil => intro t; left; rfl
  | cons p ps ih =>
    intro t
    rw [addSeqListT0]
    rcases hp : addSeqT0 t p with ⟨t', e⟩
    cases e with
    | none => exact ih t'
    | some err =>
      rcases addSeqT0_snd t p with h | h <;> rw [hp] at h
      · exact Option.noConfusion h
      · injection h with h
        right
        simp [h]

/-! ### The accumulator as a fold over the offer multiset -/

theorem omin_none_right (a : Option Nat) : omin a none = a := by
  cases a <;> rfl

theorem omin_assoc (a b c : Option Nat) : omin (omin a b) c = omin a (omin b c) := by
  cases a <;> cases b <;> cases c <;> simp [omin, Nat.min_assoc]

theorem omin_comm (a b : Option Nat) : omin a b = omin b a := by
  cases a <;> cases b <;> simp [omin, Nat.min_comm]

theorem offerFold_nil [DecidableEq T] (ret : List (T × Nat)) : offerFold ret [] = ret := rfl

theorem offerFold_append [DecidableEq T] (ret : List (T × Nat)) (a b : List (T × Nat)) :
    offerFold ret (a ++ b) = offerFold (offerFold ret a) b :=
  List.foldl_append _ _ a b

theorem offMin_append [DecidableEq T] (a b : List (T × Nat)) (v : T) :
    offMin (a ++ b) v = omin (offMin a v) (offMin b v) := by
  induction a with
  | nil => rfl
  | cons p rest ih =>
    rcases p with ⟨w, c⟩
    rw [List.cons_append, offMin, offMin]
    by_cases h : w = v
    · simp only [if_pos h, ih, omin_assoc]
    · simp only [if_neg h, ih]

theorem lookupVal_nil [DecidableEq T] (w : T) : lookupVal ([] : List (T × Nat)) w = none := rfl

theorem lookupVal_cons [DecidableEq T] (w0 : T) (c0 : Nat) (rest : List (T × Nat)) (w : T) :
    lookupVal ((w0, c0) :: rest) w = if w0 = w then some c0 else lookupVal rest w := rfl

theorem retUpdate_nil [DecidableEq T] (v : T) (c : Nat) :
    retUpdate ([] : List (T × Nat)) v c = [(v, c)] := rfl

theorem retUpdate_cons [DecidableEq T] (w0 : T) (c0 : Nat) (rest : List (T × Nat)) (v : T)
    (c : Nat) :
    retUpdate ((w0, c0) :: rest) v c =
      if w0 = v then (if c < c0 then (w0, c) :: rest else (w0, c0) :: rest)
      else (w0, c0) :: retUpdate rest v c := rfl

theorem offMin_cons [DecidableEq T] (w0 : T) (c0 : Nat) (rest : List (T × Nat)) (v : T) :
    offMin ((w0, c0) :: rest) v =
      if w0 = v then omin (some c0) (offMin rest v) else offMin rest v := rfl

theorem lookupVal_retUpdate [DecidableEq T] (ret : List (T × Nat)) (v w : T) (c : Nat) :
    lookupVal (retUpdate ret v c) w =
      if w = v then omin (lookupVal ret v) (some c) else lookupVal ret w := by
  induction ret with
  | nil =>
    simp only [retUpdate_nil, lookupVal_cons, lookupVal_nil]
    by_cases h : v = w
    · subst h
      rw [if_pos rfl, if_pos rfl]
      rfl
    · rw [if_neg h, if_neg (fun hh => h hh.symm)]
  | cons p rest ih =>
    rcases p with ⟨w0, c0⟩
    simp only [retUpdate_cons]
    by_cases h0 : w0 = v
    · subst h0
      rw [if_pos rfl]
      by_cases hw : w = w0
      · subst hw
        by_cases hc : c < c0
        · rw [if_pos hc]
          simp only [lookupVal_cons, if_pos rfl, omin, Option.some.injEq, Nat.min_def,
            if_true, eq_self_iff_true]
          split_ifs <;> omega
        · rw [if_neg hc]
          simp only [lookupVal_cons, if_pos rfl, omin, Option.some.injEq, Nat.min_def,
            if_true, eq_self_iff_true]
          split_ifs <;> omega
      · have hw0 : ¬ w0 = w := fun hh => hw hh.symm
        rw [if_neg hw]
        by_cases hc : c < c0
        · rw [if_pos hc]
          simp only [lookupVal_cons, if_neg hw0]
        · rw [if_neg hc]
    · rw [if_neg h0]
      simp only [lookupVal_cons, ih, if_neg h0]
      by_cases hw : w0 = w
      · have hwv : ¬ w = v := fun hh => h0 (hw.trans hh)
        simp only [if_pos hw, if_neg hwv]
      · simp only [if_neg hw]

theorem lookupVal_offerFold [DecidableEq T] (l : List (T × Nat)) :
    ∀ (ret : List (T × Nat)) (v : T),
      lookupVal (offerFold ret l) v = omin (lookupVal ret v) (offMin l v) := by
  induction l with
  | nil => intro ret v; rw [offerFold_nil, offMin, omin_none_right]
  | cons p rest ih =>
    intro ret v
    rcases p with ⟨w, c⟩
    have hstep : offerFold ret ((w, c) :: rest) = offerFold (retUpdate ret w c) rest := rfl
    rw [hstep, ih, lookupVal_retUpdate, offMin]
    by_cases h : v = w
    · subst h
      rw [if_pos rfl, if_pos rfl, omin_assoc]
    · rw [if_neg h, if_neg (fun hh => h hh.symm)]

theorem mem_keys_iff_lookup [DecidableEq T] (l : List (T × Nat)) (w : T) :
    w ∈ keysOf l ↔ (lookupVal l w).isSome := by
  induction l with
  | nil => simp [keysOf, lookupVal]
  | cons p rest ih =>
    rcases p with ⟨w0, c0⟩
    by_cases h : w0 = w
    · subst h
      simp [keysOf, lookupVal]
    · simp [keysOf, lookupVal, h, Ne.symm h]
      rw [← ih]
      simp [keysOf]

theorem offMin_isSome_iff [DecidableEq T] (l : List (T × Nat)) (w : T) :
    (offMin l w).isSome ↔ w ∈ keysOf l := by
  induction l with
  | nil => simp [offMin, keysOf]
  | cons p rest ih =>
    rcases p with ⟨w0, c0⟩
    rw [offMin]
    by_cases h : w0 = w
    · subst h
      simp [keysOf]
      cases offMin rest w0 <;> simp [omin]
    · simp [h, ih, keysOf, Ne.symm h]

theorem keysOf_retUpdate [DecidableEq T] (ret : List (T × Nat)) (v : T) (c : Nat) :
    keysOf (retUpdate ret v c) =
      if (lookupVal ret v).isSome then keysOf ret else keysOf ret ++ [v] := by
  induction ret with
  | nil => simp [retUpdate, lookupVal, keysOf]
  | cons p rest ih =>
    rcases p with ⟨w0, c0⟩
    rw [retUpdate]
    by_cases h0 : w0 = v
    · rw [if_pos h0]
      have hsome : (lookupVal ((w0, c0) :: rest) v).isSome = true := by
        rw [lookupVal, if_pos h0]
        rfl
      rw [if_pos hsome]
      by_cases hc : c < c0
      · rw [if_pos hc]
        rfl
      · rw [if_neg hc]
    · rw [if_neg h0]
      have hv : (lookupVal ((w0, c0) :: rest) v) = lookupVal rest v := by
        rw [lookupVal, if_neg h0]
      rw [hv]
      show w0 :: keysOf (retUpdate rest v c) = _
      rw [ih]
      by_cases hs : (lookupVal rest v).isSome
      · rw [if_pos hs, if_pos hs]
        rfl
      · rw [if_neg hs, if_neg hs]
        rfl

theorem nodup_keys_retUpdate [DecidableEq T] (ret : List (T × Nat)) (v : T) (c : Nat)
    (h : (keysOf ret).Nodup) : (keysOf (retUpdate ret v c)).Nodup := by
  rw [keysOf_retUpdate]
  by_cases hs : (lookupVal ret v).isSome
  · simpa [hs] using h
  · rw [if_neg hs]
    refine List.Nodup.append h (List.nodup_singleton v) ?_
    intro a ha hb
    rw [List.mem_singleton] at hb
    subst hb
    rw [mem_keys_iff_lookup] at ha
    exact hs ha

theorem nodup_keys_offerFold [DecidableEq T] (l : List (T × Nat)) :
    ∀ ret : List (T × Nat), (keysOf ret).Nodup → (keysOf (offerFold ret l)).Nodup := by
  induction l with
  | nil => intro ret h; exact h
  | cons p rest ih =>
    intro ret h
    exact ih (retUpdate ret p.1 p.2) (nodup_keys_retUpdate ret p.1 p.2 h)

mutual
theorem searchGoN_eq {T : Type} [DecidableEq T] (n : Node T) (q : Str)
    (ret : List (T × Nat)) : searchGoN n q ret = offerFold ret (offersN n q) := by
  match n with
  | .mk bs vs =>
    rw [searchGoN, offersN]
    exact searchGoB_eq bs q ret

theorem searchGoB_eq {T : Type} [DecidableEq T] (bs : Branches T) (q : Str)
    (ret : List (T × Nat)) : searchGoB bs q ret = offerFold ret (offersB bs q) := by
  match bs with
  | .nil => rfl
  | .cons t b rest =>
    rw [searchGoB, offersB]
    cases consume t q with
    | none => exact searchGoB_eq rest q ret
    | some nq =>
      rw [offerFold_append, offerFold_append, ← searchGoN_eq b nq ret]
      by_cases h : nq = []
      · simp only [if_pos h]
        exact searchGoB_eq rest q _
      · simp only [if_neg h, offerFold_nil]
        exact searchGoB_eq rest q _
end

/-! ### The stable ascending sort -/

theorem insPair_nil {T : Type} (p : T × Nat) : insPair p [] = [p] := rfl

theorem insPair_cons {T : Type} (p q : T × Nat) (rest : List (T × Nat)) :
    insPair p (q :: rest) =
      if q.2 < p.2 then q :: insPair p rest else p :: q :: rest := rfl

theorem insPair_perm {T : Type} (p : T × Nat) (l : List (T × Nat)) :
    (insPair p l).Perm (p :: l) := by
  induction l with
  | nil => exact List.Perm.refl _
  | cons q rest ih =>
    rw [insPair_cons]
    by_cases h : q.2 < p.2
    · rw [if_pos h]
      exact (ih.cons q).trans (List.Perm.swap p q rest)
    · rw [if_neg h]

theorem sortPairs_perm {T : Type} (l : List (T × Nat)) : (sortPairs l).Perm l := by
  induction l with
  | nil => exact List.Perm.refl _
  | cons p rest ih =>
    exact (insPair_perm p (sortPairs rest)).trans (ih.cons p)

theorem insPair_sorted {T : Type} (p : T × Nat) (l : List (T × Nat))
    (h : l.Pairwise (fun a b => a.2 ≤ b.2)) :
    (insPair p l).Pairwise (fun a b => a.2 ≤ b.2) := by
  induction l with
  | nil => simp [insPair_nil]
  | cons q rest ih =>
    rw [insPair_cons]
    rcases List.pairwise_cons.mp h with ⟨hq, hrest⟩
    by_cases hlt : q.2 < p.2
    · rw [if_pos hlt]
      refine List.pairwise_cons.mpr ⟨?_, ih hrest⟩
      intro x hx
      rcases List.mem_cons.mp ((insPair_perm p rest).mem_iff.mp hx) with h1 | h1
      · rw [h1]
        exact Nat.le_of_lt hlt
      · exact hq x h1
    · rw [if_neg hlt]
      have hpq : p.2 ≤ q.2 := Nat.le_of_not_lt hlt
      refine List.pairwise_cons.mpr ⟨?_, h⟩
      intro x hx
      rcases List.mem_cons.mp hx with h1 | h1
      · rw [h1]
        exact hpq
      · exact hpq.trans (hq x h1)

theorem sortPairs_sorted {T : Type} (l : List (T × Nat)) :
    (sortPairs l).Pairwise (fun a b => a.2 ≤ b.2) := by
  induction l with
  | nil => exact List.Pairwise.nil
  | cons p rest ih => exact insPair_sorted p (sortPairs rest) ih

theorem insPair_filter {T : Type} (p : T × Nat) (l : List (T × Nat)) (c : Nat) :
    (insPair p l).filter (fun q => q.2 == c) =
      if p.2 == c then p :: l.filter (fun q => q.2 == c)
      else l.filter (fun q => q.2 == c) := by
  induction l with
  | nil =>
    rw [insPair_nil]
    by_cases h : (p.2 == c) = true
    · simp [List.filter, h]
    · simp [List.filter, h]
  | cons q rest ih =>
    rw [insPair_cons]
    by_cases hlt : q.2 < p.2
    · rw [if_pos hlt, List.filter_cons, List.filter_cons]
      by_cases hq : (q.2 == c) = true
      · have hpc : ¬ (p.2 == c) = true := by
          simp only [beq_iff_eq] at hq ⊢
          omega
        simp [hq, ih, hpc]
      · simp [hq, ih]
    · rw [if_neg hlt, List.filter_cons]

theorem sortPairs_filter {T : Type} (l : List (T × Nat)) (c : Nat) :
    (sortPairs l).filter (fun q => q.2 == c) = l.filter (fun q => q.2 == c) := by
  induction l with
  | nil => rfl
  | cons p rest ih =>
    show (insPair p (sortPairs rest)).filter _ = _
    rw [insPair_filter, List.filter_cons, ih]

theorem lookup_eq_of_mem_nodup {T : Type} [DecidableEq T] (l : List (T × Nat))
    (h : (keysOf l).Nodup) (v : T) (c : Nat) (hm : (v, c) ∈ l) :
    lookupVal l v = some c := by
  induction l with
  | nil => simp at hm
  | cons p rest ih =>
    rcases p with ⟨w0, c0⟩
    rcases List.pairwise_cons.mp h with ⟨hk, hrest⟩
    rw [lookupVal_cons]
    rcases List.mem_cons.mp hm with h1 | h1
    · injection h1 with h1a h1b
      rw [if_pos h1a.symm, h1b]
    · by_cases hw : w0 = v
      · exfalso
        have : v ∈ keysOf rest := List.mem_map.mpr ⟨(v, c), h1, rfl⟩
        exact hk v this hw
      · rw [if_neg hw]
        exact ih hrest h1

theorem searchGo_nodup_keys {T : Type} [DecidableEq T] (n : Node T) (q : Str) :
    (keysOf (searchGoN n q [])).Nodup := by
  rw [searchGoN_eq]
  exact nodup_keys_offerFold (offersN n q) [] (by simp [keysOf])

/-- C4: the list returned by `search` is the stable ascending-by-cost sort
of the accumulated `(value, minimal cost)` entries: costs are pairwise
nondecreasing along the output, every listed pair carries exactly the
value's minimal recorded cost, and entries of equal cost keep the
accumulator's (traversal) order. -/
theorem claim_C4 {T : Type} [DecidableEq T] (t : PPTree T) (q : Str) :
    searchT t q = (searchPairsN t.root q).map Prod.fst ∧
    (searchPairsN t.root q).Pairwise (fun a b => a.2 ≤ b.2) ∧
    (∀ p ∈ searchPairsN t.root q, minCostOf t q p.1 = some p.2) ∧
    (∀ c, (searchPairsN t.root q).filter (fun p => p.2 == c) =
      (searchGoN t.root q []).filter (fun p => p.2 == c)) := by
  refine ⟨rfl, sortPairs_sorted _, ?_, fun c => sortPairs_filter _ c⟩
  intro p hp
  rcases p with ⟨v, c⟩
  exact lookup_eq_of_mem_nodup _ (searchGo_nodup_keys t.root q) v c
    ((sortPairs_perm _).mem_iff.mp hp)

/-! ### Search only returns values present in the tree -/

theorem valueInN_mk [DecidableEq T] (bs : Branches T) (vs : List (T × Nat)) (v : T) :
    valueInN (.mk bs vs) v = ((lookupVal vs v).isSome || valueInB bs v) := rfl

theorem valueInB_cons [DecidableEq T] (t : Token) (c : Node T) (rest : Branches T) (v : T) :
    valueInB (.cons t c rest) v = (valueInN c v || valueInB rest v) := rfl

theorem lookup_isSome_of_mem [DecidableEq T] (vs : List (T × Nat)) (v : T) (c : Nat)
    (h : (v, c) ∈ vs) : (lookupVal vs v).isSome = true := by
  induction vs with
  | nil => simp at h
  | cons p rest ih =>
    rcases p with ⟨w0, c0⟩
    rw [lookupVal_cons]
    rcases List.mem_cons.mp h with h1 | h1
    · injection h1 with h1a h1b
      rw [if_pos h1a.symm]
      rfl
    · by_cases hw : w0 = v
      · rw [if_pos hw]
        rfl
      · rw [if_neg hw]
        exact ih h1

mutual
theorem offersN_valueIn {T : Type} [DecidableEq T] (n : Node T) (q : Str) (p : T × Nat)
    (hp : p ∈ offersN n q) : valueInN n p.1 = true := by
  match n with
  | .mk bs vs =>
    rw [offersN] at hp
    rw [valueInN_mk, offersB_valueIn bs q p hp, Bool.or_true]

theorem offersB_valueIn {T : Type} [DecidableEq T] (bs : Branches T) (q : Str) (p : T × Nat)
    (hp : p ∈ offersB bs q) : valueInB bs p.1 = true := by
  match bs with
  | .nil => rw [offersB] at hp; simp at hp
  | .cons t b rest =>
    rw [offersB] at hp
    rw [valueInB_cons]
    cases hc : consume t q with
    | none =>
      rw [hc] at hp
      rw [offersB_valueIn rest q p hp, Bool.or_true]
    | some nq =>
      rw [hc] at hp
      rcases List.mem_append.mp hp with h1 | h1
      · rcases List.mem_append.mp h1 with h2 | h2
        · rw [offersN_valueIn b nq p h2, Bool.true_or]
        · by_cases hnq : nq = []
          · rw [if_pos hnq] at h2
            have hb : valueInN b p.1 = true := by
              match b with
              | .mk bs2 vs2 =>
                rw [valueInN_mk]
                rcases p with ⟨v, c⟩
                rw [lookup_isSome_of_mem vs2 v c h2, Bool.true_or]
            rw [hb, Bool.true_or]
          · rw [if_neg hnq] at h2
            simp at h2
      · rw [offersB_valueIn rest q p h1, Bool.or_true]
end

/-- C10: a pair whose sequence expands to the empty atomic sequence is
silently ignored — `addSequence` succeeds and leaves the tree exactly as it
was — and a value that occurs nowhere in a tree is never returned by
`search`, whatever the query (including the empty one). -/
theorem claim_C10 {T : Type} [DecidableEq T] (t : PPTree T) (pair : SVPair T)
    (hopt : t.optimized = false)
    (hempty : expandSequence pair.1 = .ok []) :
    addSequenceT t pair = (t, none) ∧
    (valueInN t.root pair.2 = false → ∀ q, pair.2 ∉ searchT t q) := by
  constructor
  · rw [addSequenceT, if_neg (by rw [hopt]; exact Bool.noConfusion)]
    unfold addSeqT0
    rw [hempty]
    rfl
  · intro hv q hmem
    rcases List.mem_map.mp hmem with ⟨p, hp, hfst⟩
    have hret : p ∈ searchGoN t.root q [] := (sortPairs_perm _).mem_iff.mp hp
    have hkey : pair.2 ∈ keysOf (searchGoN t.root q []) :=
      List.mem_map.mpr ⟨p, hret, hfst⟩
    rw [mem_keys_iff_lookup, searchGoN_eq, lookupVal_offerFold] at hkey
    have hoff : (offMin (offersN t.root q) pair.2).isSome = true := by
      rw [lookupVal_nil] at hkey
      exact hkey
    rw [offMin_isSome_iff] at hoff
    rcases List.mem_map.mp hoff with ⟨p2, hp2, hfst2⟩
    have := offersN_valueIn t.root q p2 hp2
    rw [hfst2, hv] at this
    exact Bool.noConfusion this

/-- Witness for C10: adding `([""] ↦ 9)` to `tOneGood` is a no-op, and `9`
is absent from every search result on that tree. -/
theorem claim_C10_witness :
    addSequenceT tOneGood ([Token.str []], 9) = (tOneGood, none) ∧
    (valueInN tOneGood.root 9 = false → ∀ q, (9 : Nat) ∉ searchT tOneGood q) :=
  claim_C10 tOneGood ([Token.str []], 9) (by decide) rfl

/-! ### Insertion: recorded costs along suffix paths, monotone minima -/

theorem branches_mk {T : Type} (bs : Branches T) (vs : List (T × Nat)) :
    (Node.mk bs vs).branches = bs := rfl

theorem values_mk {T : Type} (bs : Branches T) (vs : List (T × Nat)) :
    (Node.mk bs vs).values = vs := rfl

theorem keyPath_nil : keyPath [] = [] := rfl

theorem keyPath_cons (t : Token) (ts : List Token) :
    keyPath (t :: ts) = keyOf t :: keyPath ts := rfl

theorem findKeyB_nil {T : Type} (k : Str) : findKeyB (.nil : Branches T) k = none := rfl

theorem findKeyB_cons {T : Type} (t : Token) (c : Node T) (rest : Branches T) (k : Str) :
    findKeyB (.cons t c rest) k = if keyOf t = k then some c else findKeyB rest k := rfl

theorem branchAdjust_nil {T : Type} (tok : Token) (f : Node T → Node T) :
    branchAdjust .nil tok f = .cons tok (f emptyNode) .nil := rfl

theorem branchAdjust_cons {T : Type} (t : Token) (c : Node T) (rest : Branches T)
    (tok : Token) (f : Node T → Node T) :
    branchAdjust (.cons t c rest) tok f =
      if keyOf t = keyOf tok then .cons t (f c) rest
      else .cons t c (branchAdjust rest tok f) := rfl

theorem followB_nil {T : Type} (n : Node T) : followB n [] = some n := rfl

theorem costAt_nil [DecidableEq T] (n : Node T) (v : T) :
    costAt n [] v = lookupVal n.values v := rfl

theorem costAt_cons [DecidableEq T] (n : Node T) (k : Str) (ks : List Str) (v : T) :
    costAt n (k :: ks) v =
      (match findKeyB n.branches k with
       | none => none
       | some c => costAt c ks v) := by
  rw [costAt]
  show (match (match findKeyB n.branches k with
               | none => none
               | some c => followB c ks) with
        | none => none
        | some m => lookupVal m.values v) = _
  cases findKeyB n.branches k with
  | none => rfl
  | some c => rfl

theorem findKeyB_branchAdjust_same {T : Type} (bs : Branches T) (tok : Token)
    (f : Node T → Node T) :
    findKeyB (branchAdjust bs tok f) (keyOf tok) =
      some (f (match findKeyB bs (keyOf tok) with
               | none => emptyNode
               | some c => c)) := by
  match bs with
  | .nil => rw [branchAdjust_nil, findKeyB_cons, if_pos rfl, findKeyB_nil]
  | .cons t c rest =>
    rw [branchAdjust_cons]
    by_cases h : keyOf t = keyOf tok
    · rw [if_pos h, findKeyB_cons, if_pos h, findKeyB_cons, if_pos h]
    · rw [if_neg h, findKeyB_cons, if_neg h, findKeyB_cons, if_neg h,
        findKeyB_branchAdjust_same rest tok f]

theorem findKeyB_branchAdjust_other {T : Type} (bs : Branches T) (tok : Token)
    (f : Node T → Node T) (k : Str) (hk : k ≠ keyOf tok) :
    findKeyB (branchAdjust bs tok f) k = findKeyB bs k := by
  match bs with
  | .nil =>
    rw [branchAdjust_nil, findKeyB_cons, findKeyB_nil,
      if_neg (fun hh => hk hh.symm)]
  | .cons t c rest =>
    rw [branchAdjust_cons]
    by_cases h : keyOf t = keyOf tok
    · rw [if_pos h]
      by_cases h2 : keyOf t = k
      · exact absurd (h2.symm.trans h) hk
      · rw [findKeyB_cons, if_neg h2, findKeyB_cons, if_neg h2]
    · rw [if_neg h]
      simp only [findKeyB_cons, findKeyB_branchAdjust_other rest tok f k hk]

theorem setMin_lookup_none [DecidableEq T] (vs : List (T × Nat)) (v : T) (k : Nat)
    (h : lookupVal vs v = none) : lookupVal (setMin vs v k) v = some k := by
  induction vs with
  | nil => simp [setMin, lookupVal_cons]
  | cons p rest ih =>
    rcases p with ⟨w0, c0⟩
    rw [lookupVal_cons] at h
    by_cases hw : w0 = v
    · rw [if_pos hw] at h
      exact Option.noConfusion h
    · rw [if_neg hw] at h
      show lookupVal (if w0 = v then _ else (w0, c0) :: setMin rest v k) v = some k
      rw [if_neg hw, lookupVal_cons, if_neg hw]
      exact ih h

theorem setMin_lookup_some [DecidableEq T] (vs : List (T × Nat)) (v : T) (k c : Nat)
    (h : lookupVal vs v = some c) : lookupVal (setMin vs v k) v = some (min c k) := by
  induction vs with
  | nil => rw [lookupVal_nil] at h; exact Option.noConfusion h
  | cons p rest ih =>
    rcases p with ⟨w0, c0⟩
    rw [lookupVal_cons] at h
    show lookupVal (if w0 = v then (w0, min c0 k) :: rest else (w0, c0) :: setMin rest v k) v
      = some (min c k)
    by_cases hw : w0 = v
    · rw [if_pos hw] at h
      injection h with h
      rw [if_pos hw, lookupVal_cons, if_pos hw, h]
    · rw [if_neg hw] at h
      rw [if_neg hw, lookupVal_cons, if_neg hw]
      exact ih h

theorem setMin_lookup_other [DecidableEq T] (vs : List (T × Nat)) (v w : T) (k : Nat)
    (hw : w ≠ v) : lookupVal (setMin vs v k) w = lookupVal vs w := by
  induction vs with
  | nil =>
    show lookupVal [(v, k)] w = none
    rw [lookupVal_cons, if_neg (fun hh => hw hh.symm), lookupVal_nil]
  | cons p rest ih =>
    rcases p with ⟨w0, c0⟩
    show lookupVal (if w0 = v then (w0, min c0 k) :: rest else (w0, c0) :: setMin rest v k) w
      = _
    by_cases h0 : w0 = v
    · have hw0 : ¬ w0 = w := fun hh => hw (hh.symm.trans h0)
      rw [if_pos h0, lookupVal_cons, lookupVal_cons, if_neg hw0, if_neg hw0]
    · rw [if_neg h0, lookupVal_cons, lookupVal_cons, ih]

theorem addSeqN_nil_eq [DecidableEq T] (n : Node T) (v : T) (k : Nat) :
    addSeqN n [] v k = .mk n.branches (setMin n.values v k) := rfl

theorem addSeqN_cons_eq [DecidableEq T] (n : Node T) (first : Token) (rest : List Token)
    (v : T) (k : Nat) :
    addSeqN n (first :: rest) v k =
      .mk (branchAdjust n.branches first (fun c => addSeqN c rest v k)) n.values := rfl

theorem addSeqN_costAt_path [DecidableEq T] (seq : List Token) :
    ∀ (n : Node T) (v : T) (k : Nat),
      ∃ c ≤ k, costAt (addSeqN n seq v k) (keyPath seq) v = some c := by
  induction seq with
  | nil =>
    intro n v k
    rw [addSeqN_nil_eq, keyPath_nil]
    cases hl : lookupVal n.values v with
    | none =>
      refine ⟨k, Nat.le_refl k, ?_⟩
      rw [costAt_nil, values_mk]
      exact setMin_lookup_none n.values v k hl
    | some c0 =>
      refine ⟨min c0 k, Nat.min_le_right c0 k, ?_⟩
      rw [costAt_nil, values_mk]
      exact setMin_lookup_some n.values v k c0 hl
  | cons first rest ih =>
    intro n v k
    rw [addSeqN_cons_eq, keyPath_cons]
    rcases ih (match findKeyB n.branches (keyOf first) with
               | none => emptyNode
               | some c => c) v k with ⟨c, hc, hcost⟩
    refine ⟨c, hc, ?_⟩
    rw [costAt_cons, branches_mk, findKeyB_branchAdjust_same]
    exact hcost

theorem costAt_emptyNode [DecidableEq T] (path : List Str) (v : T) :
    costAt (emptyNode : Node T) path v = none := by
  cases path with
  | nil => rfl
  | cons k ks => rfl

/-- A single insertion records at the reached node exactly
`min(previously recorded cost ?? Infinity, skipped)`. -/
theorem addSeqN_costAt_exact [DecidableEq T] (seq : List Token) :
    ∀ (n : Node T) (v : T) (k : Nat),
      costAt (addSeqN n seq v k) (keyPath seq) v =
        some (minInf (costAt n (keyPath seq) v) k) := by
  induction seq with
  | nil =>
    intro n v k
    rw [addSeqN_nil_eq, keyPath_nil, costAt_nil, costAt_nil, values_mk]
    cases hl : lookupVal n.values v with
    | none => rw [setMin_lookup_none n.values v k hl]; rfl
    | some c0 => rw [setMin_lookup_some n.values v k c0 hl]; rfl
  | cons first rest ih =>
    intro n v k
    rw [addSeqN_cons_eq, keyPath_cons]
    simp only [costAt_cons, branches_mk]
    rw [findKeyB_branchAdjust_same]
    cases hfind : findKeyB n.branches (keyOf first) with
    | none =>
      show costAt (addSeqN emptyNode rest v k) (keyPath rest) v = some (minInf none k)
      rw [ih emptyNode v k, costAt_emptyNode]
    | some child =>
      show costAt (addSeqN child rest v k) (keyPath rest) v =
        some (minInf (costAt child (keyPath rest) v) k)
      rw [ih child v k]

theorem addSeqN_costAt_mono [DecidableEq T] (seq : List Token) :
    ∀ (n : Node T) (v : T) (k : Nat) (path : List Str) (w : T) (c : Nat),
      costAt n path w = some c →
      ∃ c' ≤ c, costAt (addSeqN n seq v k) path w = some c' := by
  induction seq with
  | nil =>
    intro n v k path w c hold
    rw [addSeqN_nil_eq]
    cases path with
    | nil =>
      rw [costAt_nil] at hold
      rw [costAt_nil, values_mk]
      by_cases hw : w = v
      · subst hw
        refine ⟨min c k, Nat.min_le_left c k, ?_⟩
        exact setMin_lookup_some n.values w k c hold
      · exact ⟨c, Nat.le_refl c, by rw [setMin_lookup_other n.values v w k hw]; exact hold⟩
    | cons p ps =>
      rw [costAt_cons] at hold
      rw [costAt_cons, branches_mk]
      exact ⟨c, Nat.le_refl c, hold⟩
  | cons first rest ih =>
    intro n v k path w c hold
    rw [addSeqN_cons_eq]
    cases path with
    | nil =>
      rw [costAt_nil] at hold
      rw [costAt_nil, values_mk]
      exact ⟨c, Nat.le_refl c, hold⟩
    | cons p ps =>
      rw [costAt_cons] at hold
      rw [costAt_cons, branches_mk]
      by_cases hp : p = keyOf first
      · subst hp
        cases hfind : findKeyB n.branches (keyOf first) with
        | none => rw [hfind] at hold; exact Option.noConfusion hold
        | some child =>
          rw [hfind] at hold
          rcases ih child v k ps w c hold with ⟨c', hc', hcost⟩
          refine ⟨c', hc', ?_⟩
          rw [findKeyB_branchAdjust_same, hfind]
          exact hcost
      · rw [findKeyB_branchAdjust_other n.branches first _ p hp]
        exact ⟨c, Nat.le_refl c, hold⟩

theorem foldl_addSeq_mono [DecidableEq T] (is : List Nat) (ex : List Token) (v : T) :
    ∀ (r : Node T) (path : List Str) (w : T) (c : Nat),
      costAt r path w = some c →
      ∃ c' ≤ c,
        costAt (is.foldl (fun r i => addSeqN r (ex.drop i) v i) r) path w = some c' := by
  induction is with
  | nil => intro r path w c h; exact ⟨c, Nat.le_refl c, h⟩
  | cons i rest ih =>
    intro r path w c h
    rcases addSeqN_costAt_mono (ex.drop i) r v i path w c h with ⟨c1, hc1, h1⟩
    rcases ih (addSeqN r (ex.drop i) v i) path w c1 h1 with ⟨c2, hc2, h2⟩
    exact ⟨c2, hc2.trans hc1, h2⟩

theorem foldl_addSeq_records [DecidableEq T] (is : List Nat) (ex : List Token) (v : T) :
    ∀ r : Node T, ∀ i ∈ is,
      ∃ c ≤ i,
        costAt (is.foldl (fun r i => addSeqN r (ex.drop i) v i) r)
          (keyPath (ex.drop i)) v = some c := by
  induction is with
  | nil => intro r i hi; simp at hi
  | cons j rest ih =>
    intro r i hi
    rw [List.foldl_cons]
    rcases List.mem_cons.mp hi with h1 | h1
    · subst h1
      rcases addSeqN_costAt_path (ex.drop i) r v i with ⟨c, hc, hcost⟩
      rcases foldl_addSeq_mono rest ex v _ (keyPath (ex.drop i)) v c hcost with
        ⟨c', hc', hcost2⟩
      exact ⟨c', hc'.trans hc, hcost2⟩
    · exact ih (addSeqN r (ex.drop j) v j) i h1

/-- C3: a successful `addSequence` on an unoptimized tree expands the pair's
sequence to an atomic sequence `ex` and folds over the offsets
`i ∈ [0, ex.length)`, each step inserting the tail `ex.drop i`; each such
insertion records at the node reached by the tail's key path exactly
`min(previously recorded cost for the value at that node ?? Infinity, i)`;
consequently the final tree holds a cost `≤ i` at every tail's node, and no
recorded cost of any value at any node ever increases across the insertion. -/
theorem claim_C3 {T : Type} [DecidableEq T] (t : PPTree T) (pair : SVPair T)
    (t' : PPTree T) (hopt : t.optimized = false) (ex : List Token)
    (hex : expandSequence pair.1 = .ok ex)
    (hadd : addSequenceT t pair = (t', none)) :
    (t'.root =
      (List.range ex.length).foldl (fun r i => addSeqN r (ex.drop i) pair.2 i) t.root) ∧
    (∀ (r : Node T) (i : Nat),
      costAt (addSeqN r (ex.drop i) pair.2 i) (keyPath (ex.drop i)) pair.2 =
        some (minInf (costAt r (keyPath (ex.drop i)) pair.2) i)) ∧
    (∀ i < ex.length,
      ∃ c ≤ i, costAt t'.root (keyPath (ex.drop i)) pair.2 = some c) ∧
    (∀ (path : List Str) (w : T) (c : Nat),
      costAt t.root path w = some c → ∃ c' ≤ c, costAt t'.root path w = some c') := by
  rw [addSequenceT, if_neg (by rw [hopt]; exact Bool.noConfusion)] at hadd
  rw [addSeqT0, hex] at hadd
  have hroot : t'.root =
      (List.range ex.length).foldl (fun r i => addSeqN r (ex.drop i) pair.2 i) t.root := by
    have := congrArg Prod.fst hadd
    exact congrArg PPTree.root this.symm
  refine ⟨hroot, ?_, ?_, ?_⟩
  · intro r i
    exact addSeqN_costAt_exact (ex.drop i) r pair.2 i
  · intro i hi
    rw [hroot]
    exact foldl_addSeq_records (List.range ex.length) ex pair.2 t.root i
      (List.mem_range.mpr hi)
  · intro path w c h
    rw [hroot]
    exact foldl_addSeq_mono (List.range ex.length) ex pair.2 t.root path w c h

/-- Witness for C3: inserting `("ab" ↦ 3)` into the empty tree is the fold
of the two tail insertions, each recording the exact min at its tail node. -/
theorem claim_C3_witness :
    ((addSequenceT (emptyTree (T := Nat)) ([Token.str (s2l "ab")], 3)).1.root =
      (List.range ([Token.str ['a'], Token.str ['b']] : List Token).length).foldl
        (fun r i => addSeqN r (([Token.str ['a'], Token.str ['b']] : List Token).drop i) 3 i)
        (emptyTree (T := Nat)).root) ∧
    (∀ (r : Node Nat) (i : Nat),
      costAt (addSeqN r (([Token.str ['a'], Token.str ['b']] : List Token).drop i) 3 i)
          (keyPath (([Token.str ['a'], Token.str ['b']] : List Token).drop i)) 3 =
        some (minInf
          (costAt r (keyPath (([Token.str ['a'], Token.str ['b']] : List Token).drop i)) 3)
          i)) ∧
    (∀ i < ([Token.str ['a'], Token.str ['b']] : List Token).length,
      ∃ c ≤ i,
        costAt (addSequenceT (emptyTree (T := Nat)) ([Token.str (s2l "ab")], 3)).1.root
          (keyPath (([Token.str ['a'], Token.str ['b']] : List Token).drop i)) 3 =
          some c) ∧
    (∀ (path : List Str) (w : Nat) (c : Nat),
      costAt (emptyTree (T := Nat)).root path w = some c →
      ∃ c' ≤ c,
        costAt (addSequenceT (emptyTree (T := Nat)) ([Token.str (s2l "ab")], 3)).1.root
          path w = some c') :=
  claim_C3 emptyTree ([Token.str (s2l "ab")], 3) _ rfl
    [Token.str ['a'], Token.str ['b']] rfl rfl

/-! ### Literal consumption composes along concatenation -/

theorem startsWithS_cons (c d : Char) (s p : Str) :
    startsWithS (c :: s) (d :: p) = (decide (c = d) && startsWithS s p) := by
  simp [startsWithS, List.take_succ_cons, List.cons.injEq, Bool.decide_and]

theorem consume_nil_query (t : Token) : consume t [] = some [] := by
  cases t <;> rfl

theorem consume_str_eq (s q : Str) :
    consume (.str s) q =
      if startsWithS s (q.take s.length) then some (q.drop s.length) else none := by
  by_cases hq : q = []
  · subst hq
    simp [consume, startsWithS]
  · simp [consume, hq]

theorem consume_str_nil_tok (q : Str) : consume (.str []) q = some q := by
  rw [consume_str_eq]
  simp [startsWithS]

theorem consume_str_cons (c : Char) (z q : Str) :
    consume (.str (c :: z)) q = (consumeChar c q).bind (consume (.str z)) := by
  cases q with
  | nil => rfl
  | cons d q2 =>
    rw [consume_str_eq, List.length_cons, List.take_succ_cons, List.drop_succ_cons,
      startsWithS_cons]
    show _ = (if c = d then some q2 else none).bind (consume (.str z))
    by_cases hcd : c = d
    · simp only [hcd, decide_True, Bool.true_and, if_true, Option.some_bind]
      rw [consume_str_eq]
    · simp only [hcd, decide_False, Bool.false_and, Bool.false_eq_true, if_false,
        if_neg hcd, Option.none_bind]

theorem consume_str_append (x y q : Str) :
    consume (.str (x ++ y)) q = (consume (.str x) q).bind (consume (.str y)) := by
  induction x generalizing q with
  | nil =>
    rw [List.nil_append, consume_str_nil_tok]
    rfl
  | cons c x2 ih =>
    rw [List.cons_append, consume_str_cons, consume_str_cons]
    cases consumeChar c q with
    | none => rfl
    | some q2 =>
      show consume (.str (x2 ++ y)) q2 = (consume (.str x2) q2).bind _
      exact ih q2

/-! ### Offers as a concatenation over branch map entries -/

theorem offersN_mk [DecidableEq T] (bs : Branches T) (vs : List (T × Nat)) (q : Str) :
    offersN (.mk bs vs) q = offersB bs q := rfl

theorem offersB_nil_eq [DecidableEq T] (q : Str) : offersB (.nil : Branches T) q = [] := rfl

theorem offersB_cons_eq [DecidableEq T] (t : Token) (b : Node T) (rest : Branches T)
    (q : Str) : offersB (.cons t b rest) q = offersE t b q ++ offersB rest q := by
  rw [offersB, offersE]
  cases consume t q with
  | none => rfl
  | some nq => rfl

theorem bappend_nil_left {T : Type} (cs : Branches T) : bappend .nil cs = cs := rfl

theorem bappend_cons {T : Type} (t : Token) (c : Node T) (rest cs : Branches T) :
    bappend (.cons t c rest) cs = .cons t c (bappend rest cs) := rfl

theorem bappend_nil {T : Type} (bs : Branches T) : bappend bs .nil = bs := by
  match bs with
  | .nil => rfl
  | .cons t c rest => rw [bappend_cons, bappend_nil rest]

theorem appendB_eq {T : Type} (bs : Branches T) (tok : Token) (n : Node T) :
    appendB bs tok n = bappend bs (.cons tok n .nil) := by
  match bs with
  | .nil => rfl
  | .cons t c rest =>
    show Branches.cons t c (appendB rest tok n) = _
    rw [bappend_cons, appendB_eq rest tok n]

theorem bappend_assoc {T : Type} (a b c : Branches T) :
    bappend (bappend a b) c = bappend a (bappend b c) := by
  match a with
  | .nil => rfl
  | .cons t n rest =>
    rw [bappend_cons, bappend_cons, bappend_cons, bappend_assoc rest b c]

theorem offersB_bappend [DecidableEq T] (bs cs : Branches T) (q : Str) :
    offersB (bappend bs cs) q = offersB bs q ++ offersB cs q := by
  match bs with
  | .nil => rfl
  | .cons t b rest =>
    rw [bappend_cons, offersB_cons_eq, offersB_cons_eq, offersB_bappend rest cs q,
      List.append_assoc]

/-- The key step of compression transparency: a string edge `x` to a
value-free node with the single string edge `y` to `child` contributes, on
every query, exactly the offers of the single merged edge `x ++ y` to
`child`. -/
theorem offersE_merge [DecidableEq T] (x y : Str) (child : Node T) (q : Str) :
    offersE (.str x) (.mk (.cons (.str y) child .nil) []) q =
      offersE (.str (x ++ y)) child q := by
  rw [offersE, offersE, consume_str_append]
  cases hx : consume (.str x) q with
  | none => rfl
  | some nq =>
    show offersN (Node.mk (Branches.cons (Token.str y) child Branches.nil) []) nq ++
        (if nq = [] then (Node.mk (Branches.cons (Token.str y) child Branches.nil)
          ([] : List (T × Nat))).values else []) =
      (match consume (Token.str y) nq with
       | none => []
       | some nq2 => offersN child nq2 ++ if nq2 = [] then child.values else [])
    rw [offersN_mk, offersB_cons_eq, offersB_nil_eq, List.append_nil, values_mk,
      ite_self, List.append_nil]
    rfl

/-! ### Key lists and the merge-loop key invariant -/

theorem litKeys_nil {T : Type} : litKeys (.nil : Branches T) = [] := rfl

theorem litKeys_cons_str {T : Type} (s : Str) (c : Node T) (rest : Branches T) :
    litKeys (.cons (.str s) c rest) = s :: litKeys rest := rfl

theorem litKeys_cons_pat {T : Type} (p : Pat) (c : Node T) (rest : Branches T) :
    litKeys (.cons (.pat p) c rest) = litKeys rest := rfl

theorem patKeys_nil {T : Type} : patKeys (.nil : Branches T) = [] := rfl

theorem patKeys_cons_str {T : Type} (s : Str) (c : Node T) (rest : Branches T) :
    patKeys (.cons (.str s) c rest) = patKeys rest := rfl

theorem patKeys_cons_pat {T : Type} (p : Pat) (c : Node T) (rest : Branches T) :
    patKeys (.cons (.pat p) c rest) = p.source :: patKeys rest := rfl

theorem litKeys_bappend {T : Type} (bs cs : Branches T) :
    litKeys (bappend bs cs) = litKeys bs ++ litKeys cs := by
  match bs with
  | .nil => rfl
  | .cons t c rest =>
    rw [bappend_cons]
    match t with
    | .str s => rw [litKeys_cons_str, litKeys_cons_str, litKeys_bappend rest cs]; rfl
    | .pat p => rw [litKeys_cons_pat, litKeys_cons_pat, litKeys_bappend rest cs]

theorem patKeys_bappend {T : Type} (bs cs : Branches T) :
    patKeys (bappend bs cs) = patKeys bs ++ patKeys cs := by
  match bs with
  | .nil => rfl
  | .cons t c rest =>
    rw [bappend_cons]
    match t with
    | .str s => rw [patKeys_cons_str, patKeys_cons_str, patKeys_bappend rest cs]
    | .pat p => rw [patKeys_cons_pat, patKeys_cons_pat, patKeys_bappend rest cs]; rfl

theorem containsKeyB_false {T : Type} (bs : Branches T) (k : Str)
    (h1 : k ∉ litKeys bs) (h2 : k ∉ patKeys bs) : containsKeyB bs k = false := by
  match bs with
  | .nil => rfl
  | .cons t c rest =>
    show (keyOf t = k || containsKeyB rest k) = false
    match t with
    | .str s =>
      rw [litKeys_cons_str] at h1
      rw [patKeys_cons_str] at h2
      have hs : ¬ (keyOf (Token.str s) = k) := by
        show ¬ s = k
        intro hh
        exact h1 (hh ▸ List.mem_cons_self s _)
      rw [containsKeyB_false rest k (fun hh => h1 (List.mem_cons_of_mem s hh)) h2]
      simp [hs]
    | .pat p =>
      rw [litKeys_cons_pat] at h1
      rw [patKeys_cons_pat] at h2
      have hs : ¬ (keyOf (Token.pat p) = k) := by
        show ¬ p.source = k
        intro hh
        exact h2 (hh ▸ List.mem_cons_self p.source _)
      rw [containsKeyB_false rest k h1 (fun hh => h2 (List.mem_cons_of_mem p.source hh))]
      simp [hs]

theorem head?_append_left (s t : Str) (hs : s ≠ []) : (s ++ t).head? = s.head? := by
  cases s with
  | nil => exact absurd rfl hs
  | cons c s2 => rfl

theorem bappend_appendB {T : Type} (visited : Branches T) (tok : Token) (n : Node T)
    (todo : Branches T) :
    bappend (appendB visited tok n) todo = bappend visited (.cons tok n todo) := by
  rw [appendB_eq, bappend_assoc, bappend_cons, bappend_nil_left]

/-! ### Unfolding equations of the merge loop -/

theorem mergeLoopF_nil_todo [DecidableEq T] (fuel : Nat) (visited : Branches T) :
    mergeLoopF fuel visited .nil = visited := by
  cases fuel <;> rfl

theorem mergeLoopF_zero [DecidableEq T] (visited : Branches T) (x : Token) (rest : Node T)
    (todoRest : Branches T) :
    mergeLoopF 0 visited (.cons x rest todoRest) = bappend visited (.cons x rest todoRest) := by
  rfl

theorem mergeLoopF_succ_pat [DecidableEq T] (fuel : Nat) (visited : Branches T) (p : Pat)
    (rest : Node T) (todoRest : Branches T) :
    mergeLoopF (fuel + 1) visited (.cons (.pat p) rest todoRest) =
      mergeLoopF fuel (appendB visited (.pat p) rest) todoRest := rfl

theorem mergeLoopF_succ_str_nilb [DecidableEq T] (fuel : Nat) (visited : Branches T)
    (s : Str) (vs : List (T × Nat)) (todoRest : Branches T) :
    mergeLoopF (fuel + 1) visited (.cons (.str s) (.mk .nil vs) todoRest) =
      mergeLoopF fuel (appendB visited (.str s) (.mk .nil vs)) todoRest := rfl

theorem mergeLoopF_succ_str_twob [DecidableEq T] (fuel : Nat) (visited : Branches T)
    (s : Str) (y : Token) (child : Node T) (y2 : Token) (c2 : Node T) (r2 : Branches T)
    (vs : List (T × Nat)) (todoRest : Branches T) :
    mergeLoopF (fuel + 1) visited
        (.cons (.str s) (.mk (.cons y child (.cons y2 c2 r2)) vs) todoRest) =
      mergeLoopF fuel
        (appendB visited (.str s) (.mk (.cons y child (.cons y2 c2 r2)) vs)) todoRest := rfl

theorem mergeLoopF_succ_str_vals [DecidableEq T] (fuel : Nat) (visited : Branches T)
    (s : Str) (y : Token) (child : Node T) (v0 : T × Nat) (vrest : List (T × Nat))
    (todoRest : Branches T) :
    mergeLoopF (fuel + 1) visited
        (.cons (.str s) (.mk (.cons y child .nil) (v0 :: vrest)) todoRest) =
      mergeLoopF fuel
        (appendB visited (.str s) (.mk (.cons y child .nil) (v0 :: vrest))) todoRest := rfl

theorem mergeLoopF_succ_str_paty [DecidableEq T] (fuel : Nat) (visited : Branches T)
    (s : Str) (p2 : Pat) (child : Node T) (todoRest : Branches T) :
    mergeLoopF (fuel + 1) visited
        (.cons (.str s) (.mk (.cons (.pat p2) child .nil) []) todoRest) =
      mergeLoopF fuel
        (appendB visited (.str s) (.mk (.cons (.pat p2) child .nil) [])) todoRest := rfl

theorem mergeLoopF_succ_merge [DecidableEq T] (fuel : Nat) (visited : Branches T)
    (s tt : Str) (child : Node T) (todoRest : Branches T) :
    mergeLoopF (fuel + 1) visited
        (.cons (.str s) (.mk (.cons (.str tt) child .nil) []) todoRest) =
      (if containsKeyB visited (s ++ tt) then
        mergeLoopF fuel (replaceKeyB visited (s ++ tt) child) todoRest
      else if containsKeyB todoRest (s ++ tt) then
        mergeLoopF fuel visited (replaceKeyB todoRest (s ++ tt) child)
      else
        mergeLoopF fuel visited (appendB todoRest (.str (s ++ tt)) child)) := rfl

theorem offMin_nil [DecidableEq T] (v : T) : offMin [] v = none := rfl

/-- Under the key invariant, the key `s ++ tt` produced by merging the
literal edge `s` with its child's literal edge `tt` collides with no other
entry, and the invariant survives the merge (delete `s`, append
`s ++ tt`). -/
theorem merge_invariants {T : Type} (visited todoRest : Branches T) (s tt : Str)
    (R : Node T)
    (hInv : EInv (bappend visited (.cons (.str s) R todoRest))) :
    containsKeyB visited (s ++ tt) = false ∧
    containsKeyB todoRest (s ++ tt) = false ∧
    ∀ child : Node T, EInv (bappend visited (appendB todoRest (.str (s ++ tt)) child)) := by
  have hlit : litKeys (bappend visited (.cons (.str s) R todoRest)) =
      litKeys visited ++ s :: litKeys todoRest := by
    rw [litKeys_bappend, litKeys_cons_str]
  have hpatk : patKeys (bappend visited (.cons (.str s) R todoRest)) =
      patKeys visited ++ patKeys todoRest := by
    rw [patKeys_bappend, patKeys_cons_str]
  rcases hInv with ⟨hgood, hnodup, hpats⟩
  rw [hlit] at hgood hnodup
  rw [hpatk] at hpats
  have hsmem : s ∈ litKeys visited ++ s :: litKeys todoRest :=
    List.mem_append_right _ (List.mem_cons_self s _)
  rcases hgood s hsmem with ⟨hs_head, hs_ne⟩
  have hk_head : (s ++ tt).head? = s.head? := head?_append_left s tt hs_ne
  have hk_ne : s ++ tt ≠ [] := by
    intro hh
    exact hs_ne (List.append_eq_nil.mp hh).1
  rw [List.map_append, List.map_cons] at hnodup
  rcases List.nodup_append.mp hnodup with ⟨hA, hsB, hdisj⟩
  have hsB2 : s.head? ∉ (litKeys todoRest).map List.head? :=
    (List.nodup_cons.mp hsB).1
  have hsA : s.head? ∉ (litKeys visited).map List.head? := by
    intro hh
    exact hdisj hh (List.mem_cons_self _ _)
  have hklitv : s ++ tt ∉ litKeys visited := by
    intro hh
    exact hsA (hk_head ▸ List.mem_map.mpr ⟨s ++ tt, hh, rfl⟩)
  have hklitt : s ++ tt ∉ litKeys todoRest := by
    intro hh
    exact hsB2 (hk_head ▸ List.mem_map.mpr ⟨s ++ tt, hh, rfl⟩)
  have hkpatv : s ++ tt ∉ patKeys visited := by
    intro hh
    have := hpats (s ++ tt) (List.mem_append_left _ hh)
    rw [hk_head] at this
    exact hs_head this
  have hkpatt : s ++ tt ∉ patKeys todoRest := by
    intro hh
    have := hpats (s ++ tt) (List.mem_append_right _ hh)
    rw [hk_head] at this
    exact hs_head this
  refine ⟨containsKeyB_false visited _ hklitv hkpatv,
    containsKeyB_false todoRest _ hklitt hkpatt, ?_⟩
  intro child
  refine ⟨?_, ?_, ?_⟩
  · rw [litKeys_bappend, appendB_eq, litKeys_bappend, litKeys_cons_str, litKeys_nil]
    intro u hu
    rcases List.mem_append.mp hu with h1 | h1
    · exact hgood u (List.mem_append_left _ h1)
    · rcases List.mem_append.mp h1 with h2 | h2
      · exact hgood u (List.mem_append_right _ (List.mem_cons_of_mem s h2))
      · rcases List.mem_singleton.mp h2 with rfl
        exact ⟨by rw [hk_head]; exact hs_head, hk_ne⟩
  · rw [litKeys_bappend, appendB_eq, litKeys_bappend, litKeys_cons_str, litKeys_nil]
    have hperm :
        ((litKeys visited ++ (litKeys todoRest ++ [s ++ tt])).map List.head?).Perm
          ((litKeys visited).map List.head? ++
            s.head? :: (litKeys todoRest).map List.head?) := by
      rw [List.map_append, List.map_append, List.map_singleton, hk_head]
      exact List.Perm.append_left _ (List.perm_append_singleton _ _)
    exact hperm.symm.nodup hnodup
  · rw [patKeys_bappend, appendB_eq, patKeys_bappend, patKeys_cons_str, patKeys_nil,
      List.append_nil]
    exact hpats

theorem mergeLoop_skip [DecidableEq T] (fuel : Nat) (visited : Branches T) (x : Token)
    (rest : Node T) (todoRest : Branches T)
    (ih : ∀ (visited todo : Branches T), EInv (bappend visited todo) →
      ∀ (q : Str) (v : T),
        offMin (offersB (mergeLoopF fuel visited todo) q) v =
        offMin (offersB (bappend visited todo) q) v)
    (hInv : EInv (bappend visited (.cons x rest todoRest))) (q : Str) (v : T) :
    offMin (offersB (mergeLoopF fuel (appendB visited x rest) todoRest) q) v =
    offMin (offersB (bappend visited (.cons x rest todoRest)) q) v := by
  have h2 := ih (appendB visited x rest) todoRest
    (by rw [bappend_appendB]; exact hInv) q v
  rw [bappend_appendB] at h2
  exact h2

/-- The merge loop of `Node.optimize` preserves, on every query, the
minimal offered cost of every value, provided the node-level key invariant
holds (so that no `set` of a merged key ever overwrites another entry). -/
theorem mergeLoopF_offMin [DecidableEq T] (fuel : Nat) :
    ∀ (visited todo : Branches T), EInv (bappend visited todo) →
      ∀ (q : Str) (v : T),
        offMin (offersB (mergeLoopF fuel visited todo) q) v =
        offMin (offersB (bappend visited todo) q) v := by
  induction fuel with
  | zero =>
    intro visited todo hInv q v
    match todo with
    | .nil => rw [mergeLoopF_nil_todo, bappend_nil]
    | .cons x rest todoRest => rw [mergeLoopF_zero]
  | succ fuel ih =>
    intro visited todo hInv q v
    match todo with
    | .nil => rw [mergeLoopF_nil_todo, bappend_nil]
    | .cons (.pat p) rest todoRest =>
      rw [mergeLoopF_succ_pat]
      exact mergeLoop_skip fuel visited _ _ todoRest ih hInv q v
    | .cons (.str s) (.mk .nil vs) todoRest =>
      rw [mergeLoopF_succ_str_nilb]
      exact mergeLoop_skip fuel visited _ _ todoRest ih hInv q v
    | .cons (.str s) (.mk (.cons y child (.cons y2 c2 r2)) vs) todoRest =>
      rw [mergeLoopF_succ_str_twob]
      exact mergeLoop_skip fuel visited _ _ todoRest ih hInv q v
    | .cons (.str s) (.mk (.cons y child .nil) (v0 :: vrest)) todoRest =>
      rw [mergeLoopF_succ_str_vals]
      exact mergeLoop_skip fuel visited _ _ todoRest ih hInv q v
    | .cons (.str s) (.mk (.cons (.pat p2) child .nil) []) todoRest =>
      rw [mergeLoopF_succ_str_paty]
      exact mergeLoop_skip fuel visited _ _ todoRest ih hInv q v
    | .cons (.str s) (.mk (.cons (.str tt) child .nil) []) todoRest =>
      -- the merge case
      rcases merge_invariants visited todoRest s tt _ hInv with ⟨hvis, htodo, hInv2⟩
      rw [mergeLoopF_succ_merge, if_neg (by simp [hvis]), if_neg (by simp [htodo])]
      rw [ih visited (appendB todoRest (.str (s ++ tt)) child) (hInv2 child) q v]
      rw [offersB_bappend, offersB_bappend, appendB_eq, offersB_bappend,
        offersB_cons_eq, offersB_cons_eq, offersB_nil_eq, List.append_nil,
        offersE_merge]
      rw [offMin_append, offMin_append, offMin_append, offMin_append]
      rw [omin_comm (offMin (offersB todoRest q) v)
        (offMin (offersE (.str (s ++ tt)) child q) v)]

/-! ### `Node.optimize` preserves the minimal offered costs -/

theorem optNode_mk [DecidableEq T] (bs : Branches T) (vs : List (T × Nat)) :
    optNode (.mk bs vs) = .mk (mergeLoopF (bweight (optB bs) + 1) .nil (optB bs)) vs := rfl

theorem optB_nil [DecidableEq T] : optB (.nil : Branches T) = .nil := rfl

theorem optB_cons [DecidableEq T] (t : Token) (c : Node T) (rest : Branches T) :
    optB (.cons t c rest) = .cons t (optNode c) (optB rest) := rfl

theorem optNode_values [DecidableEq T] (c : Node T) : (optNode c).values = c.values := by
  match c with
  | .mk bs vs => rfl

theorem litKeys_optB [DecidableEq T] (bs : Branches T) :
    litKeys (optB bs) = litKeys bs := by
  match bs with
  | .nil => rfl
  | .cons t c rest =>
    rw [optB_cons]
    match t with
    | .str s => rw [litKeys_cons_str, litKeys_cons_str, litKeys_optB rest]
    | .pat p => rw [litKeys_cons_pat, litKeys_cons_pat, litKeys_optB rest]

theorem patKeys_optB [DecidableEq T] (bs : Branches T) :
    patKeys (optB bs) = patKeys bs := by
  match bs with
  | .nil => rfl
  | .cons t c rest =>
    rw [optB_cons]
    match t with
    | .str s => rw [patKeys_cons_str, patKeys_cons_str, patKeys_optB rest]
    | .pat p => rw [patKeys_cons_pat, patKeys_cons_pat, patKeys_optB rest]

theorem EInv_optB [DecidableEq T] (bs : Branches T) (h : EInv bs) : EInv (optB bs) := by
  unfold EInv at h ⊢
  rw [litKeys_optB, patKeys_optB]
  exact h

theorem RInvN_mk {T : Type} (bs : Branches T) (vs : List (T × Nat)) :
    RInvN (.mk bs vs) = (EInv bs ∧ RInvB bs) := rfl

theorem RInvB_cons {T : Type} (t : Token) (c : Node T) (rest : Branches T) :
    RInvB (.cons t c rest) = (RInvN c ∧ RInvB rest) := rfl

theorem offMin_offersE_congr [DecidableEq T] (t : Token) (b b' : Node T)
    (hvals : b'.values = b.values)
    (hoff : ∀ (nq : Str) (v : T), offMin (offersN b' nq) v = offMin (offersN b nq) v)
    (q : Str) (v : T) :
    offMin (offersE t b' q) v = offMin (offersE t b q) v := by
  rw [offersE, offersE]
  cases consume t q with
  | none => rfl
  | some nq =>
    show offMin (offersN b' nq ++ if nq = [] then b'.values else []) v =
      offMin (offersN b nq ++ if nq = [] then b.values else []) v
    rw [offMin_append, offMin_append, hoff nq v, hvals]

mutual
theorem optNode_offMin [DecidableEq T] (n : Node T) (h : RInvN n) (q : Str) (v : T) :
    offMin (offersN (optNode n) q) v = offMin (offersN n q) v := by
  match n with
  | .mk bs vs =>
    rcases (RInvN_mk bs vs) ▸ h with ⟨hE, hR⟩
    rw [optNode_mk, offersN_mk, offersN_mk]
    have h1 := mergeLoopF_offMin (bweight (optB bs) + 1) .nil (optB bs)
      (by rw [bappend_nil_left]; exact EInv_optB bs hE) q v
    rw [bappend_nil_left] at h1
    rw [h1]
    exact optB_offMin bs hR q v

theorem optB_offMin [DecidableEq T] (bs : Branches T) (h : RInvB bs) (q : Str) (v : T) :
    offMin (offersB (optB bs) q) v = offMin (offersB bs q) v := by
  match bs with
  | .nil => rfl
  | .cons t c rest =>
    rcases (RInvB_cons t c rest) ▸ h with ⟨hc, hrest⟩
    rw [optB_cons, offersB_cons_eq, offersB_cons_eq, offMin_append, offMin_append,
      optB_offMin rest hrest q v,
      offMin_offersE_congr t c (optNode c) (optNode_values c)
        (fun nq v2 => optNode_offMin c hc nq v2) q v]
end

/-! ### Trees built by insertion satisfy the key invariant -/

theorem toksB_nil {T : Type} : toksB (.nil : Branches T) = [] := rfl

theorem toksB_cons {T : Type} (t : Token) (c : Node T) (rest : Branches T) :
    toksB (.cons t c rest) = t :: toksB rest := rfl

theorem allKeys_nil {T : Type} : allKeys (.nil : Branches T) = [] := rfl

theorem allKeys_cons {T : Type} (t : Token) (c : Node T) (rest : Branches T) :
    allKeys (.cons t c rest) = keyOf t :: allKeys rest := rfl

theorem BInvN_mk {T : Type} (bs : Branches T) (vs : List (T × Nat)) :
    BInvN (.mk bs vs) =
      ((∀ t ∈ toksB bs, TokGoodAtom t) ∧ (allKeys bs).Nodup ∧ BInvB bs) := rfl

theorem BInvB_cons {T : Type} (t : Token) (c : Node T) (rest : Branches T) :
    BInvB (.cons t c rest) = (BInvN c ∧ BInvB rest) := rfl

theorem litKeys_mem_toks {T : Type} (bs : Branches T) (s : Str) (h : s ∈ litKeys bs) :
    Token.str s ∈ toksB bs := by
  match bs with
  | .nil => simp [litKeys_nil] at h
  | .cons t c rest =>
    rw [toksB_cons]
    match t with
    | .str s2 =>
      rw [litKeys_cons_str] at h
      rcases List.mem_cons.mp h with h1 | h1
      · rw [h1]
        exact List.mem_cons_self _ _
      · exact List.mem_cons_of_mem _ (litKeys_mem_toks rest s h1)
    | .pat p =>
      rw [litKeys_cons_pat] at h
      exact List.mem_cons_of_mem _ (litKeys_mem_toks rest s h)

theorem patKeys_mem_toks {T : Type} (bs : Branches T) (u : Str) (h : u ∈ patKeys bs) :
    ∃ p : Pat, Token.pat p ∈ toksB bs ∧ p.source = u := by
  match bs with
  | .nil => simp [patKeys_nil] at h
  | .cons t c rest =>
    rw [toksB_cons]
    match t with
    | .str s2 =>
      rw [patKeys_cons_str] at h
      rcases patKeys_mem_toks rest u h with ⟨p, hp, hs⟩
      exact ⟨p, List.mem_cons_of_mem _ hp, hs⟩
    | .pat p2 =>
      rw [patKeys_cons_pat] at h
      rcases List.mem_cons.mp h with h1 | h1
      · exact ⟨p2, List.mem_cons_self _ _, h1.symm⟩
      · rcases patKeys_mem_toks rest u h1 with ⟨p, hp, hs⟩
        exact ⟨p, List.mem_cons_of_mem _ hp, hs⟩

theorem litKeys_sublist_allKeys {T : Type} (bs : Branches T) :
    (litKeys bs).Sublist (allKeys bs) := by
  match bs with
  | .nil => exact List.Sublist.refl _
  | .cons t c rest =>
    rw [allKeys_cons]
    match t with
    | .str s =>
      rw [litKeys_cons_str]
      exact List.Sublist.cons₂ s (litKeys_sublist_allKeys rest)
    | .pat p =>
      rw [litKeys_cons_pat]
      exact List.Sublist.cons _ (litKeys_sublist_allKeys rest)

theorem isAnchored_head (s : Str) (h : isAnchored s = true) : s.head? = some '^' := by
  cases s with
  | nil => simp [isAnchored, startsWithS] at h
  | cons c s2 =>
    have : c = '^' := by
      simpa [isAnchored, startsWithS, List.take_succ_cons] using h
    rw [this]
    rfl

theorem EInv_of_BInv {T : Type} (bs : Branches T)
    (hgood : ∀ t ∈ toksB bs, TokGoodAtom t) (hnd : (allKeys bs).Nodup) : EInv bs := by
  refine ⟨?_, ?_, ?_⟩
  · intro s hs
    have := hgood _ (litKeys_mem_toks bs s hs)
    rcases this with ⟨c, rfl, hc⟩
    constructor
    · intro hh
      injection hh with hh
      exact hc hh
    · exact List.noConfusion
  · have hln : (litKeys bs).Nodup := (litKeys_sublist_allKeys bs).nodup hnd
    refine List.Nodup.map_on ?_ hln
    intro x hx y hy hxy
    rcases hgood _ (litKeys_mem_toks bs x hx) with ⟨cx, rfl, _⟩
    rcases hgood _ (litKeys_mem_toks bs y hy) with ⟨cy, rfl, _⟩
    injection hxy with hxy
    rw [hxy]
  · intro u hu
    rcases patKeys_mem_toks bs u hu with ⟨p, hp, hs⟩
    have := hgood _ hp
    rw [← hs]
    exact isAnchored_head _ this

mutual
theorem BInvN_RInvN {T : Type} (n : Node T) (h : BInvN n) : RInvN n := by
  match n with
  | .mk bs vs =>
    rcases (BInvN_mk bs vs) ▸ h with ⟨hgood, hnd, hB⟩
    rw [RInvN_mk]
    exact ⟨EInv_of_BInv bs hgood hnd, BInvB_RInvB bs hB⟩

theorem BInvB_RInvB {T : Type} (bs : Branches T) (h : BInvB bs) : RInvB bs := by
  match bs with
  | .nil => exact trivial
  | .cons t c rest =>
    rcases (BInvB_cons t c rest) ▸ h with ⟨hc, hrest⟩
    rw [RInvB_cons]
    exact ⟨BInvN_RInvN c hc, BInvB_RInvB rest hrest⟩
end

theorem mem_allKeys_branchAdjust {T : Type} (bs : Branches T) (tok : Token)
    (f : Node T → Node T) (u : Str) (h : u ∈ allKeys (branchAdjust bs tok f)) :
    u ∈ allKeys bs ∨ u = keyOf tok := by
  match bs with
  | .nil =>
    rw [branchAdjust_nil, allKeys_cons, allKeys_nil] at h
    rcases List.mem_cons.mp h with h1 | h1
    · exact Or.inr h1
    · simp at h1
  | .cons t c rest =>
    rw [branchAdjust_cons] at h
    rw [allKeys_cons]
    by_cases hk : keyOf t = keyOf tok
    · rw [if_pos hk, allKeys_cons] at h
      exact Or.inl h
    · rw [if_neg hk, allKeys_cons] at h
      rcases List.mem_cons.mp h with h1 | h1
      · exact Or.inl (h1 ▸ List.mem_cons_self _ _)
      · rcases mem_allKeys_branchAdjust rest tok f u h1 with h2 | h2
        · exact Or.inl (List.mem_cons_of_mem _ h2)
        · exact Or.inr h2

theorem emptyNode_BInv {T : Type} : BInvN (emptyNode : Node T) := by
  rw [emptyNode, BInvN_mk]
  refine ⟨?_, ?_, trivial⟩
  · intro t ht
    simp [toksB_nil] at ht
  · rw [allKeys_nil]
    exact List.nodup_nil

theorem branchAdjust_BInv {T : Type} (bs : Branches T) (tok : Token) (f : Node T → Node T)
    (hgood : ∀ t ∈ toksB bs, TokGoodAtom t) (hnd : (allKeys bs).Nodup) (hB : BInvB bs)
    (htok : TokGoodAtom tok) (hf : ∀ c, BInvN c → BInvN (f c)) (hfe : BInvN (f emptyNode)) :
    (∀ t ∈ toksB (branchAdjust bs tok f), TokGoodAtom t) ∧
    (allKeys (branchAdjust bs tok f)).Nodup ∧ BInvB (branchAdjust bs tok f) := by
  match bs with
  | .nil =>
    rw [branchAdjust_nil]
    refine ⟨?_, ?_, ?_⟩
    · intro t ht
      rw [toksB_cons, toksB_nil] at ht
      rcases List.mem_cons.mp ht with h1 | h1
      · rw [h1]; exact htok
      · simp at h1
    · rw [allKeys_cons, allKeys_nil]
      exact List.nodup_singleton _
    · rw [BInvB_cons]
      exact ⟨hfe, trivial⟩
  | .cons t c rest =>
    rw [branchAdjust_cons]
    rcases (BInvB_cons t c rest) ▸ hB with ⟨hcB, hrestB⟩
    rw [toksB_cons] at hgood
    rw [allKeys_cons] at hnd
    rcases List.nodup_cons.mp hnd with ⟨hknot, hndrest⟩
    by_cases hk : keyOf t = keyOf tok
    · rw [if_pos hk]
      refine ⟨?_, ?_, ?_⟩
      · rw [toksB_cons]
        exact hgood
      · rw [allKeys_cons]
        exact hnd
      · rw [BInvB_cons]
        exact ⟨hf c hcB, hrestB⟩
    · rw [if_neg hk]
      rcases branchAdjust_BInv rest tok f
        (fun t2 ht2 => hgood t2 (List.mem_cons_of_mem _ ht2)) hndrest hrestB htok hf hfe
        with ⟨hg2, hnd2, hB2⟩
      refine ⟨?_, ?_, ?_⟩
      · intro t2 ht2
        rw [toksB_cons] at ht2
        rcases List.mem_cons.mp ht2 with h1 | h1
        · exact h1 ▸ hgood t (List.mem_cons_self _ _)
        · exact hg2 t2 h1
      · rw [allKeys_cons]
        refine List.nodup_cons.mpr ⟨?_, hnd2⟩
        intro hmem
        rcases mem_allKeys_branchAdjust rest tok f _ hmem with h1 | h1
        · exact hknot h1
        · exact hk h1
      · rw [BInvB_cons]
        exact ⟨hcB, hB2⟩

theorem addSeqN_BInv {T : Type} [DecidableEq T] (seq : List Token) :
    ∀ (n : Node T) (v : T) (k : Nat), BInvN n → (∀ tok ∈ seq, TokGoodAtom tok) →
      BInvN (addSeqN n seq v k) := by
  induction seq with
  | nil =>
    intro n v k hB _
    rw [addSeqN_nil_eq]
    match n with
    | .mk bs vs =>
      rcases (BInvN_mk bs vs) ▸ hB with ⟨hg, hnd, hBB⟩
      rw [branches_mk, values_mk, BInvN_mk]
      exact ⟨hg, hnd, hBB⟩
  | cons first rest ih =>
    intro n v k hB hgood
    rw [addSeqN_cons_eq]
    match n with
    | .mk bs vs =>
      rcases (BInvN_mk bs vs) ▸ hB with ⟨hg, hnd, hBB⟩
      rw [branches_mk, BInvN_mk]
      exact branchAdjust_BInv bs first _ hg hnd hBB
        (hgood first (List.mem_cons_self _ _))
        (fun c hc => ih c v k hc (fun t2 ht2 => hgood t2 (List.mem_cons_of_mem _ ht2)))
        (ih emptyNode v k emptyNode_BInv
          (fun t2 ht2 => hgood t2 (List.mem_cons_of_mem _ ht2)))

theorem expand_good (seq : List Token) :
    ∀ ex, expandSequence seq = .ok ex → (∀ s, Token.str s ∈ seq → '^' ∉ s) →
      ∀ tok ∈ ex, TokGoodAtom tok := by
  induction seq with
  | nil =>
    intro ex hex _
    rw [expandSequence] at hex
    injection hex with hex
    subst hex
    intro tok htok
    simp at htok
  | cons t0 rest ih =>
    intro ex hex hcar
    match t0 with
    | .str s =>
      rw [expandSequence] at hex
      cases hrest : expandSequence rest with
      | error e => rw [hrest] at hex; exact Except.noConfusion hex
      | ok r =>
        rw [hrest] at hex
        injection hex with hex
        subst hex
        intro tok htok
        rcases List.mem_append.mp htok with h1 | h1
        · rcases List.mem_map.mp h1 with ⟨c, hc, rfl⟩
          refine ⟨c, rfl, ?_⟩
          intro hh
          exact hcar s (List.mem_cons_self _ _) (hh ▸ hc)
        · exact ih r hrest (fun s2 hs2 => hcar s2 (List.mem_cons_of_mem _ hs2)) tok h1
    | .pat p =>
      rw [expandSequence] at hex
      by_cases ha : isAnchored p.source
      · rw [if_pos ha] at hex
        cases hrest : expandSequence rest with
        | error e => rw [hrest] at hex; exact Except.noConfusion hex
        | ok r =>
          rw [hrest] at hex
          injection hex with hex
          subst hex
          intro tok htok
          rcases List.mem_cons.mp htok with h1 | h1
          · rw [h1]
            exact ha
          · exact ih r hrest (fun s2 hs2 => hcar s2 (List.mem_cons_of_mem _ hs2)) tok h1
      · rw [if_neg ha] at hex
        exact Except.noConfusion hex

theorem addSeqT0_BInv {T : Type} [DecidableEq T] (t : PPTree T) (pair : SVPair T)
    (hB : BInvN t.root) (hcar : ∀ s, Token.str s ∈ pair.1 → '^' ∉ s) :
    BInvN (addSeqT0 t pair).1.root := by
  rw [addSeqT0]
  cases hex : expandSequence pair.1 with
  | error e => exact hB
  | ok ex =>
    show BInvN ((List.range ex.length).foldl
      (fun r i => addSeqN r (ex.drop i) pair.2 i) t.root)
    have hgood := expand_good pair.1 ex hex hcar
    have hfold : ∀ (is : List Nat) (r : Node T), BInvN r →
        BInvN (is.foldl (fun r i => addSeqN r (ex.drop i) pair.2 i) r) := by
      intro is
      induction is with
      | nil => intro r hr; exact hr
      | cons i is2 ih2 =>
        intro r hr
        rw [List.foldl_cons]
        exact ih2 _ (addSeqN_BInv (ex.drop i) r pair.2 i hr
          (fun tok htok => hgood tok (List.drop_subset i ex htok)))
    exact hfold _ t.root hB

theorem addSeqListT0_BInv {T : Type} [DecidableEq T] (pairs : List (SVPair T)) :
    ∀ t : PPTree T, BInvN t.root →
      (∀ pr ∈ pairs, ∀ s, Token.str s ∈ pr.1 → '^' ∉ s) →
      BInvN (addSeqListT0 t pairs).1.root := by
  induction pairs with
  | nil => intro t h _; exact h
  | cons p ps ih =>
    intro t h hcar
    rw [addSeqListT0]
    rcases hp : addSeqT0 t p with ⟨t2, e⟩
    have ht2 : BInvN t2.root := by
      have := addSeqT0_BInv t p h (hcar p (List.mem_cons_self _ _))
      rw [hp] at this
      exact this
    cases e with
    | none => exact ih t2 ht2 (fun pr hpr => hcar pr (List.mem_cons_of_mem _ hpr))
    | some err => exact ht2

theorem mem_of_lookup_eq [DecidableEq T] (l : List (T × Nat)) (v : T) (c : Nat)
    (h : lookupVal l v = some c) : (v, c) ∈ l := by
  induction l with
  | nil => rw [lookupVal_nil] at h; exact Option.noConfusion h
  | cons p rest ih =>
    rcases p with ⟨w0, c0⟩
    rw [lookupVal_cons] at h
    by_cases hw : w0 = v
    · rw [if_pos hw] at h
      injection h with h
      rw [hw, h]
      exact List.mem_cons_self _ _
    · rw [if_neg hw] at h
      exact List.mem_cons_of_mem _ (ih h)

theorem minCostOf_eq [DecidableEq T] (t : PPTree T) (q : Str) (v : T) :
    minCostOf t q v = offMin (offersN t.root q) v := by
  rw [minCostOf, searchGoN_eq, lookupVal_offerFold, lookupVal_nil]
  rfl

/-- C1 counterexample: for the tree built from `("ab" ↦ 1)` and
`("bd" ↦ 2)` and the empty query, `search` returns `[1, 2]` before
`optimize` but `[2, 1]` after it — the coalesced root edge `ab` moves to
the end of the branch map, flipping the traversal order of the two cost-0
ties.  So the returned lists are not identical. -/
theorem claim_C1_counterexample :
    (buildT pairsTie).2 = none ∧ (optimizeT treeTie).2 = none ∧
    searchT treeTie [] = [1, 2] ∧ searchT treeTieOpt [] = [2, 1] ∧
    ¬ searchT treeTieOpt [] = searchT treeTie [] :=
  ⟨rfl, rfl, by decide, by decide, by decide⟩

/-- C1 (amended): for every tree built from pairs whose literal tokens do
not contain `'^'` (so that no coalesced key can collide with a pattern
key), and every query, `search` before and after `optimize` associates the
same minimal cost to every value and returns the same values up to
reordering — by C4 the order itself is determined by the costs except
among equal-cost ties, which is exactly the freedom the counterexample
exhibits. -/
theorem claim_C1_amended {T : Type} [DecidableEq T] (pairs : List (SVPair T))
    (hcar : ∀ pr ∈ pairs, ∀ s, Token.str s ∈ pr.1 → '^' ∉ s)
    (t t' : PPTree T) (hbuild : buildT pairs = (t, none))
    (hopt : optimizeT t = (t', none)) (q : Str) :
    (∀ v, minCostOf t' q v = minCostOf t q v) ∧
    (searchT t' q).Perm (searchT t q) := by
  have hroot : t'.root = optNode t.root := by
    rw [optimizeT] at hopt
    by_cases h : t.optimized
    · rw [if_pos h] at hopt
      have := congrArg Prod.snd hopt
      exact Option.noConfusion this
    · rw [if_neg h] at hopt
      have := congrArg Prod.fst hopt
      exact congrArg PPTree.root this.symm
  have hBInv : BInvN t.root := by
    have h0 : addSeqListT0 (emptyTree (T := T)) pairs = (t, none) := hbuild
    have := addSeqListT0_BInv pairs emptyTree emptyNode_BInv hcar
    rw [h0] at this
    exact this
  have hRInv : RInvN t.root := BInvN_RInvN t.root hBInv
  have hmin : ∀ v, minCostOf t' q v = minCostOf t q v := by
    intro v
    rw [minCostOf_eq, minCostOf_eq, hroot]
    exact optNode_offMin t.root hRInv q v
  refine ⟨hmin, ?_⟩
  have hlk : ∀ v, lookupVal (searchGoN t'.root q []) v =
      lookupVal (searchGoN t.root q []) v := hmin
  have hn1 := searchGo_nodup_keys t'.root q
  have hn2 := searchGo_nodup_keys t.root q
  have hd1 : (searchGoN t'.root q []).Nodup := List.Nodup.of_map Prod.fst hn1
  have hd2 : (searchGoN t.root q []).Nodup := List.Nodup.of_map Prod.fst hn2
  have hmemiff : ∀ p, p ∈ searchGoN t'.root q [] ↔ p ∈ searchGoN t.root q [] := by
    intro p
    rcases p with ⟨v, c⟩
    constructor
    · intro hm
      refine mem_of_lookup_eq _ v c ?_
      rw [← hlk v]
      exact lookup_eq_of_mem_nodup _ hn1 v c hm
    · intro hm
      refine mem_of_lookup_eq _ v c ?_
      rw [hlk v]
      exact lookup_eq_of_mem_nodup _ hn2 v c hm
  have hperm : (searchGoN t'.root q []).Perm (searchGoN t.root q []) :=
    (List.perm_ext_iff_of_nodup hd1 hd2).mpr hmemiff
  have : (sortPairs (searchGoN t'.root q [])).Perm (sortPairs (searchGoN t.root q [])) :=
    ((sortPairs_perm _).trans hperm).trans (sortPairs_perm _).symm
  exact this.map Prod.fst

/-- Witness for the amended C1 at the counterexample's own tree and query:
the two outputs are permutations of each other with equal minimal costs,
even though their order differs. -/
theorem claim_C1_amended_witness :
    (∀ v, minCostOf treeTieOpt [] v = minCostOf treeTie [] v) ∧
    (searchT treeTieOpt []).Perm (searchT treeTie []) :=
  claim_C1_amended pairsTie
    (by
      intro pr hpr s hs
      rcases List.mem_cons.mp hpr with h1 | h1
      · rw [h1] at hs
        rcases List.mem_singleton.mp hs with h2
        have h3 : s = s2l "ab" := by injection h2
        rw [h3]
        decide
      · rcases List.mem_cons.mp h1 with h2 | h2
        · rw [h2] at hs
          rcases List.mem_singleton.mp hs with h3
          have h4 : s = s2l "bd" := by injection h3
          rw [h4]
          decide
        · simp at h2)
    treeTie treeTieOpt rfl rfl []

/-! ### Weights, entry membership, and stability of optimized maps -/

theorem nodeWeight_mk {T : Type} (bs : Branches T) (vs : List (T × Nat)) :
    nodeWeight (.mk bs vs) = bweight bs + 1 := rfl

theorem bweight_nil {T : Type} : bweight (.nil : Branches T) = 0 := rfl

theorem bweight_cons {T : Type} (t : Token) (c : Node T) (rest : Branches T) :
    bweight (.cons t c rest) = nodeWeight c + bweight rest := rfl

theorem nodeWeight_pos {T : Type} (n : Node T) : 1 ≤ nodeWeight n := by
  match n with
  | .mk bs vs => rw [nodeWeight_mk]; omega

theorem bweight_bappend {T : Type} (a b : Branches T) :
    bweight (bappend a b) = bweight a + bweight b := by
  match a with
  | .nil => rw [bappend_nil_left, bweight_nil]; omega
  | .cons t c rest =>
    rw [bappend_cons, bweight_cons, bweight_cons, bweight_bappend rest b]
    omega

theorem bweight_appendB {T : Type} (bs : Branches T) (tok : Token) (n : Node T) :
    bweight (appendB bs tok n) = bweight bs + nodeWeight n := by
  rw [appendB_eq, bweight_bappend, bweight_cons, bweight_nil]; omega

theorem bweight_replaceKeyB_le {T : Type} (bs : Branches T) (k : Str) (n : Node T) :
    bweight (replaceKeyB bs k n) ≤ bweight bs + nodeWeight n := by
  match bs with
  | .nil => rw [replaceKeyB, bweight_nil]; omega
  | .cons t c rest =>
    rw [replaceKeyB]
    by_cases h : keyOf t = k
    · rw [if_pos h, bweight_cons, bweight_cons]
      have := nodeWeight_pos c
      omega
    · rw [if_neg h, bweight_cons, bweight_cons]
      have := bweight_replaceKeyB_le rest k n
      omega

theorem bsize_le_bweight {T : Type} (bs : Branches T) : bsize bs ≤ bweight bs := by
  match bs with
  | .nil => exact Nat.le_refl 0
  | .cons t c rest =>
    show bsize rest + 1 ≤ bweight (.cons t c rest)
    rw [bweight_cons]
    have h1 := bsize_le_bweight rest
    have h2 := nodeWeight_pos c
    omega

theorem mergeLoopF_bweight_le [DecidableEq T] (fuel : Nat) :
    ∀ visited todo : Branches T,
      bweight (mergeLoopF fuel visited todo) ≤ bweight visited + bweight todo := by
  induction fuel with
  | zero =>
    intro visited todo
    match todo with
    | .nil => rw [mergeLoopF_nil_todo]; omega
    | .cons x rest todoRest => rw [mergeLoopF_zero, bweight_bappend]
  | succ fuel ih =>
    intro visited todo
    match todo with
    | .nil => rw [mergeLoopF_nil_todo]; omega
    | .cons (.pat p) rest todoRest =>
      rw [mergeLoopF_succ_pat]
      have := ih (appendB visited (.pat p) rest) todoRest
      rw [bweight_appendB] at this
      rw [bweight_cons]
      omega
    | .cons (.str s) (.mk .nil vs) todoRest =>
      rw [mergeLoopF_succ_str_nilb]
      have := ih (appendB visited (.str s) (.mk .nil vs)) todoRest
      rw [bweight_appendB] at this
      rw [bweight_cons]
      omega
    | .cons (.str s) (.mk (.cons y child (.cons y2 c2 r2)) vs) todoRest =>
      rw [mergeLoopF_succ_str_twob]
      have := ih (appendB visited (.str s) (.mk (.cons y child (.cons y2 c2 r2)) vs)) todoRest
      rw [bweight_appendB] at this
      rw [bweight_cons]
      omega
    | .cons (.str s) (.mk (.cons y child .nil) (v0 :: vrest)) todoRest =>
      rw [mergeLoopF_succ_str_vals]
      have := ih (appendB visited (.str s) (.mk (.cons y child .nil) (v0 :: vrest))) todoRest
      rw [bweight_appendB] at this
      rw [bweight_cons]
      omega
    | .cons (.str s) (.mk (.cons (.pat p2) child .nil) []) todoRest =>
      rw [mergeLoopF_succ_str_paty]
      have := ih (appendB visited (.str s) (.mk (.cons (.pat p2) child .nil) [])) todoRest
      rw [bweight_appendB] at this
      rw [bweight_cons]
      omega
    | .cons (.str s) (.mk (.cons (.str tt) child .nil) []) todoRest =>
      rw [mergeLoopF_succ_merge]
      have hw : nodeWeight (Node.mk (.cons (.str tt) child .nil) ([] : List (T × Nat))) =
          nodeWeight child + 1 := by
        rw [nodeWeight_mk, bweight_cons, bweight_nil]
      by_cases h1 : containsKeyB visited (s ++ tt)
      · rw [if_pos h1]
        have := ih (replaceKeyB visited (s ++ tt) child) todoRest
        have h2 := bweight_replaceKeyB_le visited (s ++ tt) child
        rw [bweight_cons, hw]
        omega
      · rw [if_neg h1]
        by_cases h2 : containsKeyB todoRest (s ++ tt)
        · rw [if_pos h2]
          have := ih visited (replaceKeyB todoRest (s ++ tt) child)
          have h3 := bweight_replaceKeyB_le todoRest (s ++ tt) child
          rw [bweight_cons, hw]
          omega
        · rw [if_neg h2]
          have := ih visited (appendB todoRest (.str (s ++ tt)) child)
          rw [bweight_appendB] at this
          rw [bweight_cons, hw]
          omega

mutual
theorem optNode_weight_le [DecidableEq T] (n : Node T) :
    nodeWeight (optNode n) ≤ nodeWeight n := by
  match n with
  | .mk bs vs =>
    rw [optNode_mk, nodeWeight_mk, nodeWeight_mk]
    have h1 := mergeLoopF_bweight_le (bweight (optB bs) + 1) .nil (optB bs)
    rw [bweight_nil] at h1
    have h2 := optB_weight_le bs
    omega

theorem optB_weight_le [DecidableEq T] (bs : Branches T) :
    bweight (optB bs) ≤ bweight bs := by
  match bs with
  | .nil => exact Nat.le_refl 0
  | .cons t c rest =>
    rw [optB_cons, bweight_cons, bweight_cons]
    have h1 := optNode_weight_le c
    have h2 := optB_weight_le rest
    omega
end

theorem entryMem_cons {T : Type} (x t : Token) (c n : Node T) (r : Branches T) :
    entryMem x c (.cons t n r) ↔ (x = t ∧ c = n) ∨ entryMem x c r := Iff.rfl

theorem entryMem_weight_le {T : Type} (bs : Branches T) (x : Token) (c : Node T)
    (h : entryMem x c bs) : nodeWeight c ≤ bweight bs := by
  match bs with
  | .nil => exact absurd h id
  | .cons t n r =>
    rw [bweight_cons]
    rcases h with ⟨_, rfl⟩ | h2
    · omega
    · have := entryMem_weight_le r x c h2
      omega

theorem entryMem_bappend {T : Type} (a b : Branches T) (x : Token) (c : Node T) :
    entryMem x c (bappend a b) ↔ entryMem x c a ∨ entryMem x c b := by
  match a with
  | .nil =>
    rw [bappend_nil_left]
    exact ⟨fun h => Or.inr h, fun h => h.resolve_left id⟩
  | .cons t n r =>
    rw [bappend_cons, entryMem_cons, entryMem_cons, entryMem_bappend r b x c, or_assoc]

theorem entryMem_appendB {T : Type} (bs : Branches T) (tok : Token) (n : Node T)
    (x : Token) (c : Node T) :
    entryMem x c (appendB bs tok n) ↔ entryMem x c bs ∨ (x = tok ∧ c = n) := by
  rw [appendB_eq, entryMem_bappend, entryMem_cons]
  constructor
  · rintro (h | h | h)
    · exact Or.inl h
    · exact Or.inr h
    · exact absurd h id
  · rintro (h | h)
    · exact Or.inl h
    · exact Or.inr (Or.inl h)

theorem entryMem_optB [DecidableEq T] (bs : Branches T) (x : Token) (c : Node T)
    (h : entryMem x c (optB bs)) : ∃ c0, entryMem x c0 bs ∧ c = optNode c0 := by
  match bs with
  | .nil => rw [optB_nil] at h; exact absurd h id
  | .cons t n r =>
    rw [optB_cons, entryMem_cons] at h
    rcases h with ⟨rfl, rfl⟩ | h2
    · exact ⟨n, Or.inl ⟨rfl, rfl⟩, rfl⟩
    · rcases entryMem_optB r x c h2 with ⟨c0, hm, hc⟩
      exact ⟨c0, Or.inr hm, hc⟩

theorem entryMem_RInv {T : Type} (bs : Branches T) (h : RInvB bs) (x : Token) (c : Node T)
    (hm : entryMem x c bs) : RInvN c := by
  match bs with
  | .nil => exact absurd hm id
  | .cons t n r =>
    rcases (RInvB_cons t n r) ▸ h with ⟨hn, hr⟩
    rcases hm with ⟨_, rfl⟩ | hm2
    · exact hn
    · exact entryMem_RInv r hr x c hm2

theorem RInvB_of_entryMem {T : Type} (bs : Branches T)
    (h : ∀ x c, entryMem x c bs → RInvN c) : RInvB bs := by
  match bs with
  | .nil => exact trivial
  | .cons t n r =>
    rw [RInvB_cons]
    exact ⟨h t n (Or.inl ⟨rfl, rfl⟩),
      RInvB_of_entryMem r (fun x c hm => h x c (Or.inr hm))⟩

theorem optB_id_of_fix [DecidableEq T] (bs : Branches T)
    (h : ∀ x c, entryMem x c bs → optNode c = c) : optB bs = bs := by
  match bs with
  | .nil => rfl
  | .cons t n r =>
    rw [optB_cons, h t n (Or.inl ⟨rfl, rfl⟩),
      optB_id_of_fix r (fun x c hm => h x c (Or.inr hm))]

theorem stableB_cons_iff {T : Type} (x : Token) (rest : Node T) (r : Branches T) :
    stableB (.cons x rest r) ↔ entryStable x rest ∧ stableB r := Iff.rfl

theorem stableB_appendB {T : Type} (bs : Branches T) (x : Token) (rest : Node T)
    (h : stableB bs) (he : entryStable x rest) : stableB (appendB bs x rest) := by
  match bs with
  | .nil => exact ⟨he, trivial⟩
  | .cons t n r =>
    rcases (stableB_cons_iff t n r).mp h with ⟨h1, h2⟩
    exact (stableB_cons_iff t n _).mpr ⟨h1, stableB_appendB r x rest h2 he⟩

/-- A merge loop over stable entries only moves them: it is the identity
(up to concatenation with the visited part). -/
theorem mergeLoopF_stable_id [DecidableEq T] (fuel : Nat) :
    ∀ visited todo : Branches T, stableB todo → bsize todo < fuel →
      mergeLoopF fuel visited todo = bappend visited todo := by
  induction fuel with
  | zero => intro visited todo _ h; omega
  | succ fuel ih =>
    intro visited todo hst hsz
    match todo with
    | .nil => rw [mergeLoopF_nil_todo, bappend_nil]
    | .cons (.pat p) rest todoRest =>
      rw [mergeLoopF_succ_pat, ih _ todoRest hst.2 (by
        show bsize todoRest < fuel
        have : bsize (Branches.cons (.pat p) rest todoRest) = bsize todoRest + 1 := rfl
        omega), bappend_appendB]
    | .cons (.str s) (.mk .nil vs) todoRest =>
      rw [mergeLoopF_succ_str_nilb, ih _ todoRest hst.2 (by
        show bsize todoRest < fuel
        have : bsize (Branches.cons (Token.str s) (Node.mk .nil vs) todoRest) =
          bsize todoRest + 1 := rfl
        omega), bappend_appendB]
    | .cons (.str s) (.mk (.cons y child (.cons y2 c2 r2)) vs) todoRest =>
      rw [mergeLoopF_succ_str_twob, ih _ todoRest hst.2 (by
        show bsize todoRest < fuel
        have : bsize (Branches.cons (Token.str s)
          (Node.mk (.cons y child (.cons y2 c2 r2)) vs) todoRest) = bsize todoRest + 1 := rfl
        omega), bappend_appendB]
    | .cons (.str s) (.mk (.cons y child .nil) (v0 :: vrest)) todoRest =>
      rw [mergeLoopF_succ_str_vals, ih _ todoRest hst.2 (by
        show bsize todoRest < fuel
        have : bsize (Branches.cons (Token.str s)
          (Node.mk (.cons y child .nil) (v0 :: vrest)) todoRest) = bsize todoRest + 1 := rfl
        omega), bappend_appendB]
    | .cons (.str s) (.mk (.cons (.pat p2) child .nil) []) todoRest =>
      rw [mergeLoopF_succ_str_paty, ih _ todoRest hst.2 (by
        show bsize todoRest < fuel
        have : bsize (Branches.cons (Token.str s)
          (Node.mk (.cons (.pat p2) child .nil) []) todoRest) = bsize todoRest + 1 := rfl
        omega), bappend_appendB]
    | .cons (.str s) (.mk (.cons (.str tt) child .nil) []) todoRest =>
      exact absurd hst.1 id

theorem mergeFix_skip {T : Type} [DecidableEq T] (W fuel : Nat)
    (ih : ∀ visited todo : Branches T,
      EInv (bappend visited todo) → stableB visited →
      (∀ x c, entryMem x c visited → nodeWeight c < W ∧ RInvN c ∧ optNode c = c) →
      (∀ x c, entryMem x c todo → nodeWeight c < W ∧ RInvN c ∧ optNode c = c) →
      bweight todo < fuel →
      stableB (mergeLoopF fuel visited todo) ∧ EInv (mergeLoopF fuel visited todo) ∧
      (∀ x c, entryMem x c (mergeLoopF fuel visited todo) →
        nodeWeight c < W ∧ RInvN c ∧ optNode c = c))
    (visited : Branches T) (x : Token) (rest : Node T) (todoRest : Branches T)
    (hes : entryStable x rest)
    (hInv : EInv (bappend visited (.cons x rest todoRest)))
    (hstV : stableB visited)
    (hvis : ∀ y c, entryMem y c visited → nodeWeight c < W ∧ RInvN c ∧ optNode c = c)
    (htodo : ∀ y c, entryMem y c (Branches.cons x rest todoRest) →
      nodeWeight c < W ∧ RInvN c ∧ optNode c = c)
    (hfuel : bweight (Branches.cons x rest todoRest) < fuel + 1) :
    stableB (mergeLoopF fuel (appendB visited x rest) todoRest) ∧
    EInv (mergeLoopF fuel (appendB visited x rest) todoRest) ∧
    (∀ y c, entryMem y c (mergeLoopF fuel (appendB visited x rest) todoRest) →
      nodeWeight c < W ∧ RInvN c ∧ optNode c = c) := by
  apply ih
  · rw [bappend_appendB]; exact hInv
  · exact stableB_appendB visited x rest hstV hes
  · intro y c hm
    rcases (entryMem_appendB visited x rest y c).mp hm with hm1 | ⟨hy, hc⟩
    · exact hvis y c hm1
    · rw [hc]; exact htodo x rest (Or.inl ⟨rfl, rfl⟩)
  · intro y c hm; exact htodo y c (Or.inr hm)
  · rw [bweight_cons] at hfuel
    have := nodeWeight_pos rest
    omega

/-- If every node in the (pre-optimized) todo map is a fixed point of
`optNode`, running the merge loop keeps all invariants: the result is stable,
satisfies the key invariant, and its nodes are still fixed points. -/
theorem mergeLoopF_stable_fix {T : Type} [DecidableEq T] (W : Nat)
    (SIH : ∀ m : Node T, nodeWeight m < W → RInvN m →
      optB (optNode m).branches = (optNode m).branches ∧
      stableB (optNode m).branches ∧ RInvN (optNode m))
    (fuel : Nat) :
    ∀ visited todo : Branches T,
      EInv (bappend visited todo) → stableB visited →
      (∀ x c, entryMem x c visited → nodeWeight c < W ∧ RInvN c ∧ optNode c = c) →
      (∀ x c, entryMem x c todo → nodeWeight c < W ∧ RInvN c ∧ optNode c = c) →
      bweight todo < fuel →
      stableB (mergeLoopF fuel visited todo) ∧ EInv (mergeLoopF fuel visited todo) ∧
      (∀ x c, entryMem x c (mergeLoopF fuel visited todo) →
        nodeWeight c < W ∧ RInvN c ∧ optNode c = c) := by
  induction fuel with
  | zero => intro visited todo _ _ _ _ h; omega
  | succ fuel ih =>
    intro visited todo hInv hstV hvis htodo hfuel
    match todo with
    | .nil =>
      rw [mergeLoopF_nil_todo]
      rw [bappend_nil] at hInv
      exact ⟨hstV, hInv, hvis⟩
    | .cons (.pat p) rest todoRest =>
      rw [mergeLoopF_succ_pat]
      exact mergeFix_skip W fuel ih visited _ _ todoRest (by trivial) hInv hstV hvis htodo hfuel
    | .cons (.str s) (.mk .nil vs) todoRest =>
      rw [mergeLoopF_succ_str_nilb]
      exact mergeFix_skip W fuel ih visited _ _ todoRest (by trivial) hInv hstV hvis htodo hfuel
    | .cons (.str s) (.mk (.cons y child (.cons y2 c2 r2)) vs) todoRest =>
      rw [mergeLoopF_succ_str_twob]
      exact mergeFix_skip W fuel ih visited _ _ todoRest (by cases y <;> trivial)
        hInv hstV hvis htodo hfuel
    | .cons (.str s) (.mk (.cons y child .nil) (v0 :: vrest)) todoRest =>
      rw [mergeLoopF_succ_str_vals]
      exact mergeFix_skip W fuel ih visited _ _ todoRest (by cases y <;> trivial)
        hInv hstV hvis htodo hfuel
    | .cons (.str s) (.mk (.cons (.pat p2) child .nil) []) todoRest =>
      rw [mergeLoopF_succ_str_paty]
      exact mergeFix_skip W fuel ih visited _ _ todoRest (by trivial) hInv hstV hvis htodo hfuel
    | .cons (.str s) (.mk (.cons (.str tt) child .nil) []) todoRest =>
      rcases merge_invariants visited todoRest s tt _ hInv with ⟨hvisK, htodoK, hInv2⟩
      rw [mergeLoopF_succ_merge, if_neg (by simp [hvisK]), if_neg (by simp [htodoK])]
      rcases htodo (.str s) (.mk (.cons (.str tt) child .nil) [])
        (Or.inl ⟨rfl, rfl⟩) with ⟨hwr, hRr, hfixr⟩
      have h1 : bweight (Branches.cons (Token.str s)
          (Node.mk (.cons (.str tt) child .nil) ([] : List (T × Nat))) todoRest) =
          nodeWeight child + 1 + bweight todoRest := by
        rw [bweight_cons, nodeWeight_mk, bweight_cons, bweight_nil]
      have hwchild : nodeWeight child < W := by
        have h2 : nodeWeight (Node.mk (.cons (.str tt) child .nil) ([] : List (T × Nat))) =
            nodeWeight child + 1 := by
          rw [nodeWeight_mk, bweight_cons, bweight_nil]
        omega
      have hRchild : RInvN child := by
        have hRr' := hRr
        rw [RInvN_mk] at hRr'
        rcases hRr' with ⟨hE1, hRB1⟩
        rw [RInvB_cons] at hRB1
        exact hRB1.1
      have hfixchild : optNode child = child := by
        rcases SIH (.mk (.cons (.str tt) child .nil) []) hwr hRr with ⟨hfix1, _, _⟩
        rw [hfixr, branches_mk, optB_cons, optB_nil] at hfix1
        injection hfix1
      refine ih visited (appendB todoRest (.str (s ++ tt)) child) (hInv2 child) hstV hvis ?_ ?_
      · intro y c hm
        rcases (entryMem_appendB todoRest _ child y c).mp hm with hm1 | ⟨hy, hc⟩
        · exact htodo y c (Or.inr hm1)
        · rw [hc]; exact ⟨hwchild, hRchild, hfixchild⟩
      · rw [bweight_appendB]
        rw [h1] at hfuel
        omega

theorem optNode_idem_of_P [DecidableEq T] (m : Node T)
    (h1 : optB (optNode m).branches = (optNode m).branches)
    (h2 : stableB (optNode m).branches) :
    optNode (optNode m) = optNode m := by
  cases hOM : optNode m with
  | mk M vs0 =>
    rw [hOM, branches_mk] at h1 h2
    rw [optNode_mk, h1]
    rw [mergeLoopF_stable_id (bweight M + 1) .nil M h2
      (by have := bsize_le_bweight M; omega)]
    rw [bappend_nil_left]

/-- By induction on tree weight: on every node satisfying the key invariant,
the branch map produced by `optNode` consists of optimization fixed points,
contains no mergeable entry, and still satisfies the invariant. -/
theorem optNode_fix {T : Type} [DecidableEq T] (W : Nat) :
    ∀ n : Node T, nodeWeight n < W → RInvN n →
      optB (optNode n).branches = (optNode n).branches ∧
      stableB (optNode n).branches ∧ RInvN (optNode n) := by
  induction W with
  | zero => intro n h _; have := nodeWeight_pos n; omega
  | succ W ih =>
    intro n hW hR
    match n with
    | .mk bs vs =>
      rw [nodeWeight_mk] at hW
      have hR' := hR
      rw [RInvN_mk] at hR'
      rcases hR' with ⟨hE, hRB⟩
      have hE' : EInv (optB bs) := EInv_optB bs hE
      have htodo0 : ∀ x c, entryMem x c (optB bs) →
          nodeWeight c < W ∧ RInvN c ∧ optNode c = c := by
        intro x c hm
        rcases entryMem_optB bs x c hm with ⟨c0, hm0, rfl⟩
        have hc0R : RInvN c0 := entryMem_RInv bs hRB x c0 hm0
        have hwle := entryMem_weight_le bs x c0 hm0
        have hc0W : nodeWeight c0 < W := by omega
        rcases ih c0 hc0W hc0R with ⟨hf1, hf2, hf3⟩
        refine ⟨?_, hf3, optNode_idem_of_P c0 hf1 hf2⟩
        have := optNode_weight_le c0
        omega
      have hloop := mergeLoopF_stable_fix W ih (bweight (optB bs) + 1) .nil (optB bs)
        (by rw [bappend_nil_left]; exact hE') trivial (fun x c hm => absurd hm id) htodo0
        (Nat.lt_succ_self _)
      rcases hloop with ⟨hst, hEout, htrip⟩
      refine ⟨?_, ?_, ?_⟩
      · rw [optNode_mk, branches_mk]
        exact optB_id_of_fix _ (fun x c h => (htrip x c h).2.2)
      · rw [optNode_mk, branches_mk]
        exact hst
      · rw [optNode_mk, RInvN_mk]
        exact ⟨hEout, RInvB_of_entryMem _ (fun x c h => (htrip x c h).2.1)⟩

/-- `Node.optimize` is idempotent on nodes satisfying the key invariant. -/
theorem optNode_idem [DecidableEq T] (n : Node T) (h : RInvN n) :
    optNode (optNode n) = optNode n := by
  rcases optNode_fix (nodeWeight n + 1) n (Nat.lt_succ_self _) h with ⟨h1, h2, _⟩
  exact optNode_idem_of_P n h1 h2

theorem hasB_firstSucc {T : Type} (bs : Branches T) (q : Str) :
    hasB bs q =
      (match firstSucc bs q with
       | none => false
       | some (b, nq) => if nq = [] then true else hasN b nq) := by
  match bs with
  | .nil => rfl
  | .cons t b rest =>
    rw [hasB, firstSucc]
    cases consume t q with
    | none => exact hasB_firstSucc rest q
    | some nq => rfl

/-- C6: `has` scans the edges in container order and commits to the first
edge whose `consume` succeeds — reporting a match if the remainder is
empty, else returning the recursion into only that branch — so sibling
edges are never tried; consequently there is a tree (`treeDiv`) and a
query (`"ay"`) where `has` returns `false` although `search` returns a
non-empty list. -/
theorem claim_C6 {T : Type} (n : Node T) (q : Str) :
    (hasN n q =
      (match firstSucc n.branches q with
       | none => false
       | some (b, nq) => if nq = [] then true else hasN b nq)) ∧
    ((buildT pairsDiv).2 = none ∧
     hasT treeDiv (s2l "ay") = false ∧ searchT treeDiv (s2l "ay") = [2]) := by
  constructor
  · cases n with
    | mk bs vs => exact hasB_firstSucc bs q
  · exact ⟨rfl, by decide, by decide⟩

/-- C2: for the tree built from exactly the pairs `("ab" ↦ "ab")` and
`("abc" ↦ "abc")`, after `optimize` has been called, `search("ab")`
returns a list containing both the value `"ab"` and the value `"abc"`
(construction and optimization both succeed). -/
theorem claim_C2 :
    (buildT pairsC2).2 = none ∧ (optimizeT treeC2).2 = none ∧
    s2l "ab" ∈ searchT treeC2opt (s2l "ab") ∧
    s2l "abc" ∈ searchT treeC2opt (s2l "ab") := by
  refine ⟨rfl, rfl, ?_, ?_⟩ <;> decide

/-- C5: for every anchored-pattern token and non-empty query, `consume`
attempts the pattern's left-aligned match; on success (match length `n`)
it returns the query with the first `n` characters removed, otherwise it
returns no-match. -/
theorem claim_C5 (p : Pat) (q : Str) (hq : q ≠ []) (_hanch : isAnchored p.source = true) :
    (∀ n, p.exec q = some n → consume (.pat p) q = some (q.drop n)) ∧
    (p.exec q = none → consume (.pat p) q = none) := by
  constructor
  · intro n hn
    simp [consume, hq, hn]
  · intro hn
    simp [consume, hq, hn]

/-- Witness for C5 at the pattern `/^a/` and the query `"ab"`. -/
theorem claim_C5_witness :
    ((s2l "ab" ≠ []) ∧ isAnchored patA.source = true) ∧
    (∀ n, patA.exec (s2l "ab") = some n →
        consume (.pat patA) (s2l "ab") = some ((s2l "ab").drop n)) ∧
    (patA.exec (s2l "ab") = none → consume (.pat patA) (s2l "ab") = none) :=
  ⟨⟨by decide, by decide⟩, claim_C5 patA (s2l "ab") (by decide) (by decide)⟩

/-- C7: on a tree already optimized, `addSequence`, `addSequences` and a
second `optimize` all fail with an error (and leave the tree unchanged); on
a tree not yet optimized, none of these calls raises a sealed/already
optimized error (`addSequence`/`addSequences` can only raise the
validation error, `optimize` succeeds). -/
theorem claim_C7 {T : Type} [DecidableEq T] (t : PPTree T) (pair : SVPair T)
    (pairs : List (SVPair T)) :
    (t.optimized = true →
      addSequenceT t pair = (t, some .sealedErr) ∧
      addSequencesT t pairs = (t, some .sealedErr) ∧
      optimizeT t = (t, some .alreadyOptimizedErr)) ∧
    (t.optimized = false →
      ((addSequenceT t pair).2 = none ∨ (addSequenceT t pair).2 = some .validationErr) ∧
      ((addSequencesT t pairs).2 = none ∨ (addSequencesT t pairs).2 = some .validationErr) ∧
      (optimizeT t).2 = none) := by
  constructor
  · intro h
    refine ⟨?_, ?_, ?_⟩ <;> simp [addSequenceT, addSequencesT, optimizeT, h]
  · intro h
    refine ⟨?_, ?_, ?_⟩
    · rw [addSequenceT, if_neg (by rw [h]; exact Bool.noConfusion)]
      exact addSeqT0_snd t pair
    · rw [addSequencesT, if_neg (by rw [h]; exact Bool.noConfusion)]
      exact addSeqListT0_snd pairs t
    · simp [optimizeT, h]

/-- Witness for C7: the sealed tree `tSealed` rejects all three calls; the
fresh empty tree accepts them. -/
theorem claim_C7_witness :
    (addSequenceT tSealed ([], 0) = (tSealed, some .sealedErr) ∧
     addSequencesT tSealed [] = (tSealed, some .sealedErr) ∧
     optimizeT tSealed = (tSealed, some .alreadyOptimizedErr)) ∧
    (((addSequenceT (emptyTree (T := Nat)) ([], 0)).2 = none ∨
      (addSequenceT (emptyTree (T := Nat)) ([], 0)).2 = some .validationErr) ∧
     ((addSequencesT (emptyTree (T := Nat)) []).2 = none ∨
      (addSequencesT (emptyTree (T := Nat)) []).2 = some .validationErr) ∧
     (optimizeT (emptyTree (T := Nat))).2 = none) :=
  ⟨(claim_C7 tSealed ([], 0) []).1 rfl,
   (claim_C7 emptyTree ([], 0) []).2 rfl⟩

/-- C8: a sequence containing a pattern token whose source does not begin
with `'^'` makes expansion — and hence any insertion of that sequence —
fail with the validation error. -/
theorem claim_C8 {T : Type} [DecidableEq T] (seq : List Token)
    (hbad : ∃ p, Token.pat p ∈ seq ∧ isAnchored p.source = false) :
    expandSequence seq = .error .validationErr ∧
    ∀ (t : PPTree T) (v : T),
      addSeqT0 t (seq, v) = (t, some .validationErr) ∧
      (t.optimized = false → addSequenceT t (seq, v) = (t, some .validationErr)) := by
  have h1 := expand_bad seq hbad
  refine ⟨h1, fun t v => ?_⟩
  have h2 : addSeqT0 t (seq, v) = (t, some .validationErr) := by
    unfold addSeqT0
    rw [h1]
  refine ⟨h2, fun hopt => ?_⟩
  rw [addSequenceT, if_neg (by rw [hopt]; exact Bool.noConfusion), h2]

/-- Witness for C8 at the one-token sequence `[/a/]` (unanchored). -/
theorem claim_C8_witness :
    expandSequence [Token.pat patBad] = .error .validationErr ∧
    addSeqT0 (emptyTree (T := Nat)) ([Token.pat patBad], 0) =
      (emptyTree, some .validationErr) ∧
    addSequenceT (emptyTree (T := Nat)) ([Token.pat patBad], 0) =
      (emptyTree, some .validationErr) := by
  have h := claim_C8 (T := Nat) [Token.pat patBad]
    ⟨patBad, List.Mem.head _, by decide⟩
  exact ⟨h.1, (h.2 emptyTree 0).1, (h.2 emptyTree 0).2 rfl⟩

/-- C9: a single `addSequence` call on an unoptimized tree whose sequence
contains an unanchored pattern fails during whole-sequence expansion and
returns the tree exactly as it was, so the failing call changes nothing
(all-or-nothing per pair). -/
theorem claim_C9 {T : Type} [DecidableEq T] (t : PPTree T) (pair : SVPair T)
    (hopt : t.optimized = false)
    (hbad : ∃ p, Token.pat p ∈ pair.1 ∧ isAnchored p.source = false) :
    addSequenceT t pair = (t, some .validationErr) ∧
    (∀ q, searchT (addSequenceT t pair).1 q = searchT t q) ∧
    (∀ q, hasT (addSequenceT t pair).1 q = hasT t q) := by
  have h1 : addSequenceT t pair = (t, some .validationErr) := by
    rw [addSequenceT, if_neg (by rw [hopt]; exact Bool.noConfusion)]
    unfold addSeqT0
    rw [expand_bad pair.1 hbad]
  exact ⟨h1, fun q => by rw [h1], fun q => by rw [h1]⟩

/-- Witness for C9: inserting `[/a/] ↦ 7` into the one-entry tree
`tOneGood` fails and leaves it untouched. -/
theorem claim_C9_witness :
    addSequenceT tOneGood ([Token.pat patBad], 7) = (tOneGood, some .validationErr) ∧
    (∀ q, searchT (addSequenceT tOneGood ([Token.pat patBad], 7)).1 q =
      searchT tOneGood q) ∧
    (∀ q, hasT (addSequenceT tOneGood ([Token.pat patBad], 7)).1 q =
      hasT tOneGood q) :=
  claim_C9 tOneGood ([Token.pat patBad], 7) (by decide)
    ⟨patBad, List.Mem.head _, by decide⟩

end PPT
